import Mathlib

/-!
# Vertex-elimination algorithms: shallow embedding and verification

This file embeds the core algorithms of a library of Rose–Tarjan
vertex-elimination algorithms on simple, connected, undirected graphs:

* the FILL family (`fill`, `fill_in`, `is_perfect_elimination_order`),
* the LSD base-16 `radix_sort`,
* LEX M (`lex_m`) and LEX P (`lex_p`),

and proves functional-correctness, safety and invariant properties about them.

Modelling conventions:

* vertices are natural numbers `0 .. n-1`; a graph is a vertex count plus an
  adjacency (neighbor-list) function, mirroring a boost `adjacency_list`;
* machine-size integers (`size_t`, the unsigned label type) are modelled as
  `Nat`; the C++ quantities involved never overflow (they are bounded by the
  vertex count or by the largest key), so no modular reduction is needed;
* `std::unordered_map<Vertex, T>` with default-constructed missing entries is
  modelled as a total function `Nat → T` with the default as initial value;
* `std::unordered_set<Vertex>` is modelled as `Finset Nat`; where C++ iterates
  an unordered container and the result depends on the iteration order, the
  embedding fixes one concrete order (ascending, via `ascList`), which is
  one of the behaviours the C++ source exhibits;
* out-of-range vector accesses (which are undefined behaviour in C++) are
  modelled with `List.getD` and a default; the safety theorems show the
  defaults are never consulted under the documented preconditions.
-/

/-- A graph: vertex count `n` and, for every vertex, its neighbor list.
Mirrors the read interface required of boost graphs (`num_vertices`,
`adjacent_vertices`). Vertices are `0 .. n-1`. -/
structure Graph where
  n : Nat
  adj : Nat → List Nat

/-- Wellformedness of a simple undirected graph: neighbors are in range,
adjacency is symmetric, there are no self-loops and no parallel edges. -/
def Graph.WF (g : Graph) : Prop :=
  ∀ v, v < g.n → (∀ w ∈ g.adj v, w < g.n ∧ v ∈ g.adj w ∧ w ≠ v) ∧ (g.adj v).Nodup

instance (g : Graph) : Decidable g.WF :=
  inferInstanceAs (Decidable (∀ v, v < g.n →
    (∀ w ∈ g.adj v, w < g.n ∧ v ∈ g.adj w ∧ w ≠ v) ∧ (g.adj v).Nodup))

/-- Ascending enumeration of a set of vertices known to be below `n`: the
embedding's fixed, kernel-computable resolution of `unordered_set` iteration
order. -/
def ascList (n : Nat) (s : Finset Nat) : List Nat :=
  (List.range n).filter (fun v => v ∈ s)

/-- Connectivity: every two vertices are joined by a chain of edges. -/
def Graph.Conn (g : Graph) : Prop :=
  ∀ u, u < g.n → ∀ v, v < g.n →
    Relation.ReflTransGen (fun a b => b ∈ g.adj a) u v

/-- Canonical unordered pair, smaller vertex first: the two `emplace` branches
of `fill_in` (`fill.h`). -/
def canonPair (a b : Nat) : Nat × Nat := if a < b then (a, b) else (b, a)

/-- The set of undirected edges of a graph as canonical pairs. -/
def Graph.edgeFinset (g : Graph) : Finset (Nat × Nat) :=
  (Finset.range g.n ×ˢ Finset.range g.n).filter
    (fun p => p.1 < p.2 ∧ p.2 ∈ g.adj p.1)

/-- Initial successor sets of the FILL family (`fill.h`):
`w ∈ succ v` iff `v--w` is an edge and `v` comes before `w` in `order`.
The position map `index_of` built by the C++ code is `o.indexOf`. -/
def succInit (g : Graph) (o : List Nat) : Nat → Finset Nat :=
  fun v => ((g.adj v).filter (fun w => o.indexOf v < o.indexOf w)).toFinset

/-- `min_index` computation of the FILL family: minimum order-position over a
successor set, starting from `n_vertices` (`fill.h`). -/
def fillMinIdx (g : Graph) (o : List Nat) (s : Finset Nat) : Nat :=
  s.fold min g.n (fun w => o.indexOf w)

/-- One iteration of the main loop of `fill_in` (`fill.h`), processing vertex
`v`: find the closest successor `m = order[min_index]`, make every other
successor of `v` a successor of `m`, and record the new canonical pairs.
The state is the successor map together with the fill-in edge set so far. -/
def fillInStep (g : Graph) (o : List Nat)
    (st : (Nat → Finset Nat) × Finset (Nat × Nat)) (v : Nat) :
    (Nat → Finset Nat) × Finset (Nat × Nat) :=
  let m := o.getD (fillMinIdx g o (st.1 v)) 0
  let moved := (st.1 v).erase m
  (fun x => if x = m then st.1 m ∪ moved else st.1 x,
   st.2 ∪ (moved \ st.1 m).image (fun w => canonPair m w))

/-- `fill_in(g, order)` (`fill.h`): the fill-in edge set of the ordered graph.
The C++ loop runs over every vertex of the order except the last. -/
def fill_in (g : Graph) (o : List Nat) : Finset (Nat × Nat) :=
  (o.dropLast.foldl (fillInStep g o) (succInit g o, ∅)).2

/-- `boost::add_edge(u, v, g)` on an undirected adjacency list: append each
endpoint to the other's neighbor list. -/
def addEdge (g : Graph) (u v : Nat) : Graph :=
  { n := g.n
    adj := fun x =>
      if x = u then g.adj x ++ [v] else if x = v then g.adj x ++ [u] else g.adj x }

/-- One iteration of the main loop of `fill(g, order)` (`fill.h`): same
successor bookkeeping as `fillInStep`, but the deficiency edges are added to
the graph instead of collected. The newly inserted successors are traversed in
ascending order (the embedding's resolution of `unordered_set` iteration);
the resulting edge set does not depend on this choice. -/
def fillStep (g₀ : Graph) (o : List Nat)
    (st : (Nat → Finset Nat) × Graph) (v : Nat) : (Nat → Finset Nat) × Graph :=
  let m := o.getD (fillMinIdx g₀ o (st.1 v)) 0
  let moved := (st.1 v).erase m
  (fun x => if x = m then st.1 m ∪ moved else st.1 x,
   (ascList g₀.n (moved \ st.1 m)).foldl (fun h w => addEdge h m w) st.2)

/-- `fill(g, order)` (`fill.h`): the graph after adding all fill-in edges. -/
def fill (g : Graph) (o : List Nat) : Graph :=
  (o.dropLast.foldl (fillStep g o) (succInit g o, g)).2

/-- The vertex loop of `is_perfect_elimination_order` (`fill.h`): return
`false` as soon as a vertex has a successor (other than its closest successor
`m`) that is not a successor of `m`. The successor map is never modified. -/
def isPEOLoop (g : Graph) (o : List Nat) (s : Nat → Finset Nat) :
    List Nat → Bool
  | [] => true
  | v :: rest =>
    let m := o.getD (fillMinIdx g o (s v)) 0
    if ((s v).erase m \ s m).Nonempty then false else isPEOLoop g o s rest

/-- `is_perfect_elimination_order(g, order)` (`fill.h`). -/
def is_perfect_elimination_order (g : Graph) (o : List Nat) : Bool :=
  isPEOLoop g o (succInit g o) o.dropLast

/-- The known graph of the repository's `test_fill.cc` unit test. -/
def knownGraph : Graph :=
  { n := 6
    adj := fun v =>
      [[1, 2, 4, 5], [0, 3, 5], [0, 3, 5], [1, 2, 4, 5], [0, 3], [0, 1, 2, 3]].getD v [] }

/-- Successor sets only relate order members, pointing forward in the order:
invariant of the FILL family. -/
def SuccOrd (o : List Nat) (s : Nat → Finset Nat) : Prop :=
  ∀ x w, w ∈ s x → x ∈ o ∧ w ∈ o ∧ o.indexOf x < o.indexOf w

/-- Adjacency (in either successor direction) restricted to the suffix of the
order that is still to be processed. -/
def SuffEdge (s : Nat → Finset Nat) (suf : List Nat) (x y : Nat) : Prop :=
  (y ∈ s x ∨ x ∈ s y) ∧ x ∈ suf ∧ y ∈ suf

/-- The still-unprocessed suffix is connected under the current successor
sets. -/
def SuffConn (s : Nat → Finset Nat) (suf : List Nat) : Prop :=
  ∀ x ∈ suf, ∀ y ∈ suf, Relation.ReflTransGen (SuffEdge s suf) x y

/-- The deficiency check of the FILL family at one vertex: there is a
successor, other than the closest successor, that is not yet a successor of
the closest successor. `is_perfect_elimination_order` returns `false` exactly
at the first vertex with a defect. -/
def peoDefect (g : Graph) (o : List Nat) (s : Nat → Finset Nat) (v : Nat) : Prop :=
  ((s v).erase (o.getD (fillMinIdx g o (s v)) 0) \
    s (o.getD (fillMinIdx g o (s v)) 0)).Nonempty

/-- The `fill_in` loop state right before processing position `k` of the
order. -/
def fillStateAt (g : Graph) (o : List Nat) (k : Nat) :
    (Nat → Finset Nat) × Finset (Nat × Nat) :=
  (o.dropLast.take k).foldl (fillInStep g o) (succInit g o, ∅)

/-- The three-vertex path graph, used as a concrete witness. -/
def path3 : Graph :=
  { n := 3
    adj := fun v => [[1], [0, 2], [1]].getD v [] }

/-- The digit used by the pass at bit position `shift`:
`(map[v] >> shift) & 0xf` of `radix_sort.h` (bitwise AND with `0xf` is
reduction mod 16). -/
def radixDigit {α : Type} (key : α → Nat) (shift : Nat) (v : α) : Nat :=
  (key v >>> shift) % 16

/-- One distribution pass of the LSD radix sort (`radix_sort.h`): one
traversal appends every element to the bucket of its current digit, then the
buckets `0x0 .. 0xf` are concatenated back in order. The bucket of digit `d`
after the traversal holds exactly the elements with digit `d`, in input
order. -/
def radixPass {α : Type} (l : List α) (key : α → Nat) (shift : Nat) : List α :=
  ((List.range 16).map (fun d => l.filter (fun v => radixDigit key shift v = d))).flatten

/-- The first loop of `radix_sort` (`radix_sort.h`): the maximum key, starting
from `0`. -/
def maxKey {α : Type} (l : List α) (key : α → Nat) : Nat :=
  l.foldl (fun mx v => max (key v) mx) 0

/-- The pass loop of `radix_sort` (`radix_sort.h`): starting at `shift = 0`
and advancing by 4 bits, keep distributing while `max >> shift` is non-zero.
The C++ guard `shift < key_bits` is implied by this condition, because every
key is below `2 ^ key_bits`. The fuel argument bounds the number of passes;
`max + 1` passes always suffice (`radix_sort` never exhausts it). -/
def radixGo {α : Type} (key : α → Nat) (mx : Nat) : Nat → Nat → List α → List α
  | 0, _, l => l
  | fuel + 1, shift, l =>
    if mx >>> shift = 0 then l
    else radixGo key mx fuel (shift + 4) (radixPass l key shift)

/-- `radix_sort(begin, end, map)` (`radix_sort.h`) with a total key map. -/
def radix_sort {α : Type} (l : List α) (key : α → Nat) : List α :=
  radixGo key (maxKey l key) (maxKey l key + 1) 0 l

/-- `map[v]` on the association-list model of the `unordered_map` that
`radix_sort` receives by reference: look the value up; a missing value is
default-inserted with key `0` (`radix_sort.h`). Returns the possibly extended
map and the stored key. -/
def mapGetInsert {α : Type} [DecidableEq α] (m : List (α × Nat)) (v : α) :
    List (α × Nat) × Nat :=
  match m.lookup v with
  | some k => (m, k)
  | none => (m ++ [(v, 0)], 0)

/-- The first loop of `radix_sort` over a reference map: every element is
accessed with `map[*it]`, default-inserting missing entries while computing
the maximum key. -/
def radixMaxLoop {α : Type} [DecidableEq α] (l : List α) (m : List (α × Nat)) :
    List (α × Nat) × Nat :=
  l.foldl (fun st v =>
    ((mapGetInsert st.1 v).1, max (mapGetInsert st.1 v).2 st.2)) (m, 0)

/-- `radix_sort(begin, end, map)` (`radix_sort.h`) with the map modelled as an
association list. The max loop default-inserts a zero entry for every element
missing from the map; by the time the distribution passes run, every element
of the sequence has an entry, so `map[v]` in the passes is a plain lookup.
Returns the sorted sequence and the updated map. -/
def radixSortMap {α : Type} [DecidableEq α] (l : List α) (m : List (α × Nat)) :
    List α × List (α × Nat) :=
  let p := radixMaxLoop l m
  (radixGo (fun v => (p.1.lookup v).getD 0) p.2 (p.2 + 1) 0 l, p.1)

/-- State of one `lex_m` iteration's reach/BFS machinery: the label map, the
`to_reach` queues (one deque per label value) and the `reached` set
(`lex_m.h`). -/
def LexMReachSt : Type := (Nat → Nat) × (Nat → List Nat) × Finset Nat

/-- The neighbor scan of the freshly numbered vertex (`lex_m.h`): every
unnumbered neighbor is marked reached and queued under its current label,
and its label is incremented. -/
def lexMReachInit (g : Graph) (cur : Nat) (unn : Finset Nat)
    (st : LexMReachSt) : LexMReachSt :=
  (g.adj cur).foldl (fun (st : LexMReachSt) v =>
    if v ∈ unn then
      (fun x => if x = v then st.1 x + 1 else st.1 x,
       fun lb => if lb = st.1 v then st.2.1 lb ++ [v] else st.2.1 lb,
       insert v st.2.2)
    else st) st

/-- The neighbor scan of one dequeued vertex in the BFS phase (`lex_m.h`):
every unnumbered, not yet reached neighbor `w` is marked reached; if its label
exceeds the current level `l` it is queued under its own label, which is then
incremented, otherwise it is queued at level `l` to be explored later. -/
def lexMVisit (g : Graph) (unn : Finset Nat) (l : Nat) (v : Nat)
    (st : LexMReachSt) : LexMReachSt :=
  (g.adj v).foldl (fun (st : LexMReachSt) w =>
    if w ∈ unn ∧ w ∉ st.2.2 then
      if st.1 w > l then
        (fun x => if x = w then st.1 x + 1 else st.1 x,
         fun lb => if lb = st.1 w then st.2.1 lb ++ [w] else st.2.1 lb,
         insert w st.2.2)
      else
        (st.1,
         fun lb => if lb = l then st.2.1 lb ++ [w] else st.2.1 lb,
         insert w st.2.2)
    else st) st

/-- The `while (!to_reach[l].empty())` loop of `lex_m` (`lex_m.h`): pop the
front of the level-`l` queue and visit its neighbors. The loop always
terminates because every enqueued vertex was freshly marked reached; the fuel
passed by `lexMBFS` is large enough for the queue to drain completely. -/
def lexMDrain (g : Graph) (unn : Finset Nat) (l : Nat) :
    Nat → LexMReachSt → LexMReachSt
  | 0, st => st
  | fuel + 1, st =>
    match st.2.1 l with
    | [] => st
    | v :: rest =>
      lexMDrain g unn l fuel
        (lexMVisit g unn l v
          (st.1, fun lb => if lb = l then rest else st.2.1 lb, st.2.2))

/-- The level loop of `lex_m` (`lex_m.h`): drain the queues for
`l = 0, 2, …, 2·(n_unique_labels − 1)` in ascending order. -/
def lexMBFS (g : Graph) (unn : Finset Nat) (nU : Nat)
    (st : LexMReachSt) : LexMReachSt :=
  ((List.range nU).map (fun i => 2 * i)).foldl
    (fun st l => lexMDrain g unn l (2 * unn.card + (st.2.1 l).length + 1) st) st

/-- One step of the relabel loop of `lex_m` (`lex_m.h`): compare the vertex's
label with `prev_label`, bump `n_unique_labels` and `prev_label` on a change,
and rewrite the label to `2 * (n_unique_labels - 1)`. The state is the label
map together with `prev_label` and `n_unique_labels`. -/
def lexMRelabelStep (st : (Nat → Nat) × Nat × Nat) (v : Nat) :
    (Nat → Nat) × Nat × Nat :=
  let nU2 := if st.1 v ≠ st.2.1 then st.2.2 + 1 else st.2.2
  let prev2 := if st.1 v ≠ st.2.1 then st.1 v else st.2.1
  ((fun x => if x = v then 2 * (nU2 - 1) else st.1 x), prev2, nU2)

/-- The relabel loop of `lex_m` (`lex_m.h`): walk the sorted unnumbered
vertices with `prev_label` initialized to the label of the front and
`n_unique_labels` to `1`, rewriting labels in place. Returns the new label
map and the new number of unique labels. -/
def lexMRelabel (lab : Nat → Nat) (sorted : List Nat) : (Nat → Nat) × Nat :=
  let r := sorted.foldl lexMRelabelStep (lab, lab (sorted.headD 0), 1)
  (r.1, r.2.2)

/-- Full state of the `lex_m` main loop. -/
structure LexMState where
  unnumbered : Finset Nat
  label : Nat → Nat
  nUnique : Nat
  cur : Nat
  order : List Nat

/-- The main loop of `lex_m` (`lex_m.h`), numbering vertices from index
`n − 1` down to `0` (the order list is built back to front). Each iteration
numbers `cur`, runs the reach and BFS phases, and — unless every vertex is
numbered, in which case the loop breaks — sorts the unnumbered vertices by
label with `radix_sort`, relabels them densely, and picks the highest-labeled
vertex as the next `cur`. -/
def lexMIter (g : Graph) : Nat → LexMState → List Nat
  | 0, st => st.order
  | fuel + 1, st =>
    let unn := st.unnumbered.erase st.cur
    let order := st.cur :: st.order
    let st1 := lexMReachInit g st.cur unn (st.label, fun _ => [], ∅)
    let st2 := lexMBFS g unn st.nUnique st1
    if unn = ∅ then order
    else
      let toRelabel := radix_sort (ascList g.n unn) st2.1
      lexMIter g fuel
        { unnumbered := unn
          label := (lexMRelabel st2.1 toRelabel).1
          nUnique := (lexMRelabel st2.1 toRelabel).2
          cur := toRelabel.getLastD 0
          order := order }

/-- `lex_m(g)` (`lex_m.h`). The iteration over the `unordered_set` of
vertices (for the initial `cur` and for `to_relabel`) is pinned to ascending
vertex order. -/
def lex_m (g : Graph) : List Nat :=
  lexMIter g g.n
    { unnumbered := (List.range g.n).toFinset
      label := fun _ => 0
      nUnique := 1
      cur := (ascList g.n (List.range g.n).toFinset).headD 0
      order := [] }

/-- Full state of the `lex_p` main loop (`lex_p.h`). The doubly-linked list
of `Label` blocks is a list of block ids, head first; `content` is each
block's `vertex_map` (in insertion order); `vblock` is the `label` pointer of
each `LabeledVertex`; `unordered` is the map of not-yet-numbered vertices;
fresh block ids are drawn from `nextId`. -/
structure LexPState where
  blocks : List Nat
  content : Nat → List Nat
  vblock : Nat → Nat
  unordered : Finset Nat
  nextId : Nat
  order : List Nat

/-- The scan for `cur_vertex` (`lex_p.h`): walk the list of blocks from the
head and return the first not-yet-numbered vertex found in a block's
vertex map. -/
def lexPPick (content : Nat → List Nat) (unordered : Finset Nat) :
    List Nat → Option Nat
  | [] => none
  | b :: bs =>
    match (content b).find? (fun v => v ∈ unordered) with
    | some v => some v
    | none => lexPPick content unordered bs

/-- Insert block `nb` immediately before the first occurrence of block `b`:
the pointer splice of `lex_p.h`. -/
def insertBefore (blocks : List Nat) (b nb : Nat) : List Nat :=
  match blocks with
  | [] => []
  | x :: xs => if x = b then nb :: x :: xs else x :: insertBefore xs b nb

/-- Move vertex `w` out of its current block and into block `nb`
(`lex_p.h`: `vertex_map.erase` on the old label, insert-or-assign on the new
one, and the `label` pointer update). -/
def lexPMove (st : LexPState) (w nb : Nat) : LexPState :=
  { st with
      content := fun id =>
        if id = nb then ((st.content id).erase w) ++ [w]
        else if id = st.vblock w then (st.content id).erase w
        else st.content id
      vblock := fun x => if x = w then nb else st.vblock x }

/-- One step of the neighbor loop of `lex_p` (`lex_p.h`): an unnumbered
neighbor `w` is moved from its block to the block `fix[b]`, creating that
block (with a fresh id) if this is the first vertex leaving `b` this
iteration. The state carries the algorithm state and the `fix` map as an
association list in insertion order. -/
def lexPRefineStep (p : LexPState × List (Nat × Nat)) (w : Nat) :
    LexPState × List (Nat × Nat) :=
  if w ∈ p.1.unordered then
    match p.2.lookup (p.1.vblock w) with
    | some nb => (lexPMove p.1 w nb, p.2)
    | none =>
      ({ lexPMove p.1 w p.1.nextId with nextId := p.1.nextId + 1 },
        p.2 ++ [(p.1.vblock w, p.1.nextId)])
  else p

/-- Splice every newly created block immediately before its original block
(`lex_p.h`); the `fix` entries are processed in insertion order (the
embedding's resolution of `unordered_map` iteration, and the resulting list
does not depend on this choice because the anchors are distinct). -/
def lexPSplice (blocks : List Nat) (fix : List (Nat × Nat)) : List Nat :=
  fix.foldl (fun bl p => insertBefore bl p.1 p.2) blocks

/-- One iteration of the main loop of `lex_p` (`lex_p.h`): pick and number
`cur`, remove it from `unordered` (but not from its block's vertex map), move
each unnumbered neighbor to its fix block, then splice the new blocks into
the list. If the scan finds no vertex (impossible under the preconditions:
the C++ code asserts it) the state is returned unchanged. -/
def lexPStep (g : Graph) (st : LexPState) : LexPState :=
  match lexPPick st.content st.unordered st.blocks with
  | none => st
  | some cur =>
    let st1 := { st with
      unordered := st.unordered.erase cur
      order := cur :: st.order }
    let p := (g.adj cur).foldl lexPRefineStep (st1, [])
    { p.1 with blocks := lexPSplice p.1.blocks p.2 }

/-- The reverse numbering loop of `lex_p` (`lex_p.h`). -/
def lexPIter (g : Graph) : Nat → LexPState → List Nat
  | 0, st => st.order
  | fuel + 1, st =>
    if (lexPPick st.content st.unordered st.blocks).isSome then
      lexPIter g fuel (lexPStep g st)
    else
      st.order

/-- The initial state of `lex_p` (`lex_p.h`): one head block (id `0`)
holding every vertex with the empty label. -/
def lexPInit (g : Graph) : LexPState :=
  { blocks := [0]
    content := fun b => if b = 0 then List.range g.n else []
    vblock := fun _ => 0
    unordered := (List.range g.n).toFinset
    nextId := 1
    order := [] }

/-- `lex_p(g)` (`lex_p.h`). -/
def lex_p (g : Graph) : List Nat :=
  lexPIter g g.n (lexPInit g)

/-- The invariants of the partition-refinement structure of `lex_p`
(`lex_p.h`), together with the properties of the pending `fix` map: every
unnumbered vertex lies in the block its `label` pointer names; ids at or
above the allocation counter are unallocated; listed blocks are allocated;
a vertex is only contained in the block its pointer names; block contents
hold no duplicates; `fix` maps listed blocks to allocated, not yet listed
blocks; and every `label` pointer names a listed block or a pending fresh
block. -/
abbrev LexPRefInv (st : LexPState) (fix : List (Nat × Nat)) : Prop :=
  (∀ v ∈ st.unordered, v ∈ st.content (st.vblock v)) ∧
  (∀ id, st.nextId ≤ id → st.content id = []) ∧
  (∀ id ∈ st.blocks, id < st.nextId) ∧
  (∀ v id, v ∈ st.content id → id = st.vblock v) ∧
  (∀ id, (st.content id).Nodup) ∧
  (∀ q ∈ fix, q.1 ∈ st.blocks ∧ q.2 < st.nextId ∧ q.2 ∉ st.blocks) ∧
  (∀ v, st.vblock v ∈ st.blocks ∨ st.vblock v ∈ fix.map Prod.snd)

/-- The iteration-boundary invariant of `lex_p` (`lex_p.h`): the refinement
invariant with no pending `fix` entries, and all unnumbered vertices in
range. -/
abbrev LexPInv (g : Graph) (st : LexPState) : Prop :=
  st.unordered ⊆ (List.range g.n).toFinset ∧ LexPRefInv st []

/-- The two-vertex complete graph, a concrete input for the LEX P
invariants. -/
def k2 : Graph :=
  { n := 2
    adj := fun v => [[1], [0]].getD v [] }

/-!
## Theorems
-/

/-!
## Basic lemmas about the model
-/
theorem mem_ascList {n : Nat} {s : Finset Nat} {v : Nat} :
    v ∈ ascList n s ↔ v < n ∧ v ∈ s := by
  simp [ascList, List.mem_filter, List.mem_range]

theorem mem_edgeFinset {g : Graph} {p : Nat × Nat} :
    p ∈ g.edgeFinset ↔ p.1 < g.n ∧ p.2 < g.n ∧ p.1 < p.2 ∧ p.2 ∈ g.adj p.1 := by
  simp [Graph.edgeFinset, Finset.mem_filter, Finset.mem_product, and_assoc]

@[simp] theorem addEdge_n (g : Graph) (u v : Nat) : (addEdge g u v).n = g.n := rfl

theorem adj_addEdge {g : Graph} {u v : Nat} (huv : u ≠ v) (a b : Nat) :
    b ∈ (addEdge g u v).adj a ↔ b ∈ g.adj a ∨ (a = u ∧ b = v) ∨ (a = v ∧ b = u) := by
  simp only [addEdge]
  by_cases hau : a = u
  · subst hau
    simp [huv, List.mem_append]
  · by_cases hav : a = v
    · subst hav
      simp [hau, Ne.symm huv, List.mem_append]
    · simp [hau, hav]

theorem edgeFinset_addEdge {g : Graph} {u v : Nat}
    (hu : u < g.n) (hv : v < g.n) (huv : u ≠ v) :
    (addEdge g u v).edgeFinset = g.edgeFinset ∪ {canonPair u v} := by
  ext ⟨a, b⟩
  simp only [mem_edgeFinset, Finset.mem_union, Finset.mem_singleton, addEdge_n,
    adj_addEdge huv, canonPair]
  rcases Nat.lt_or_ge u v with h | h
  · rw [if_pos h]
    constructor
    · rintro ⟨ha, hb, hab, hedge | ⟨rfl, rfl⟩ | ⟨rfl, rfl⟩⟩
      · exact Or.inl ⟨ha, hb, hab, hedge⟩
      · exact Or.inr rfl
      · omega
    · rintro (⟨ha, hb, hab, hedge⟩ | hp)
      · exact ⟨ha, hb, hab, Or.inl hedge⟩
      · obtain ⟨rfl, rfl⟩ : a = u ∧ b = v := by simpa [Prod.ext_iff] using hp
        exact ⟨hu, hv, h, Or.inr (Or.inl ⟨rfl, rfl⟩)⟩
  · have h' : v < u := by omega
    rw [if_neg (by omega)]
    constructor
    · rintro ⟨ha, hb, hab, hedge | ⟨rfl, rfl⟩ | ⟨rfl, rfl⟩⟩
      · exact Or.inl ⟨ha, hb, hab, hedge⟩
      · omega
      · exact Or.inr rfl
    · rintro (⟨ha, hb, hab, hedge⟩ | hp)
      · exact ⟨ha, hb, hab, Or.inl hedge⟩
      · obtain ⟨rfl, rfl⟩ : a = v ∧ b = u := by simpa [Prod.ext_iff] using hp
        exact ⟨hv, hu, h', Or.inr (Or.inr ⟨rfl, rfl⟩)⟩

theorem edgeFinset_foldl_addEdge (m : Nat) :
    ∀ (ws : List Nat) (h : Graph), m < h.n → (∀ w ∈ ws, w < h.n ∧ w ≠ m) →
      ((ws.foldl (fun G w => addEdge G m w) h).n = h.n ∧
        (ws.foldl (fun G w => addEdge G m w) h).edgeFinset =
          h.edgeFinset ∪ (ws.map (canonPair m)).toFinset)
  | [], h, _, _ => by simp
  | w :: ws, h, hm, hws => by
    obtain ⟨hw, hwm⟩ := hws w (List.mem_cons_self w ws)
    have step := edgeFinset_addEdge (g := h) hm hw (Ne.symm hwm)
    have ih := edgeFinset_foldl_addEdge m ws (addEdge h m w) (by simpa using hm)
      (fun x hx => by simpa using hws x (List.mem_cons_of_mem _ hx))
    refine ⟨by simpa using ih.1, ?_⟩
    rw [List.foldl_cons, ih.2, step]
    ext p
    simp [or_assoc, or_comm, or_left_comm]

/-!
## Agreement of the three FILL variants

`fill`, `fill_in` and `is_perfect_elimination_order` run the same loop; the
lemmas below relate their states step by step.
-/

/-- The fill-in edge set accumulated so far only ever grows. -/
theorem fillIn_foldl_acc_subset (g : Graph) (o : List Nat) :
    ∀ (l : List Nat) (st : (Nat → Finset Nat) × Finset (Nat × Nat)),
      st.2 ⊆ (l.foldl (fillInStep g o) st).2
  | [], _ => Finset.Subset.refl _
  | v :: l, st => by
    refine Finset.Subset.trans ?_ (fillIn_foldl_acc_subset g o l (fillInStep g o st v))
    exact Finset.subset_union_left

/-- A vertex whose deficiency check passes leaves the `fill_in` state
untouched. -/
theorem fillInStep_of_no_defect {g : Graph} {o : List Nat}
    {s : Nat → Finset Nat} {a : Finset (Nat × Nat)} {v : Nat}
    (h : (s v).erase (o.getD (fillMinIdx g o (s v)) 0) \
        s (o.getD (fillMinIdx g o (s v)) 0) = ∅) :
    fillInStep g o (s, a) v = (s, a) := by
  have hsub : (s v).erase (o.getD (fillMinIdx g o (s v)) 0) ⊆
      s (o.getD (fillMinIdx g o (s v)) 0) := Finset.sdiff_eq_empty_iff_subset.mp h
  unfold fillInStep
  simp only [Prod.mk.injEq]
  constructor
  · funext x
    by_cases hx : x = o.getD (fillMinIdx g o (s v)) 0
    · rw [if_pos hx, hx, Finset.union_eq_left.mpr hsub]
    · rw [if_neg hx]
  · rw [h, Finset.image_empty, Finset.union_empty]

/-- The short-circuiting check of `is_perfect_elimination_order` agrees with
emptiness of the edge set accumulated by the `fill_in` loop from the same
successor state. -/
theorem isPEOLoop_iff_fillIn_empty (g : Graph) (o : List Nat) :
    ∀ (l : List Nat) (s : Nat → Finset Nat),
      (isPEOLoop g o s l = true ↔ (l.foldl (fillInStep g o) (s, ∅)).2 = ∅)
  | [], s => ⟨fun _ => rfl, fun _ => rfl⟩
  | v :: l, s => by
    rw [isPEOLoop]
    by_cases hd : ((s v).erase (o.getD (fillMinIdx g o (s v)) 0) \
        s (o.getD (fillMinIdx g o (s v)) 0)).Nonempty
    · rw [if_pos hd]
      refine iff_of_false (by simp) fun hempty => ?_
      have grow : (Finset.image
          (fun w => canonPair (o.getD (fillMinIdx g o (s v)) 0) w)
          ((s v).erase (o.getD (fillMinIdx g o (s v)) 0) \
            s (o.getD (fillMinIdx g o (s v)) 0))) ⊆
          (l.foldl (fillInStep g o) (fillInStep g o (s, ∅) v)).2 := by
      -- the accumulator right after the step contains the new pairs
        refine Finset.Subset.trans ?_
          (fillIn_foldl_acc_subset g o l (fillInStep g o (s, ∅) v))
        exact Finset.subset_union_right
      rw [List.foldl_cons] at hempty
      rw [hempty] at grow
      exact Finset.not_nonempty_empty ((hd.image _).mono grow)
    · rw [if_neg hd]
      have hstep : fillInStep g o (s, (∅ : Finset (Nat × Nat))) v = (s, ∅) :=
        fillInStep_of_no_defect (Finset.not_nonempty_iff_eq_empty.mp hd)
      rw [List.foldl_cons, hstep]
      exact isPEOLoop_iff_fillIn_empty g o l s

theorem getD_mem_or (o : List Nat) (i : Nat) : o.getD i 0 ∈ o ∨ o.getD i 0 = 0 := by
  by_cases hi : i < o.length
  · rw [List.getD_eq_getElem o 0 hi]
    exact Or.inl (o.getElem_mem hi)
  · rw [List.getD_eq_default o 0 (Nat.le_of_not_lt hi)]
    exact Or.inr rfl

theorem succInit_subset_range {g : Graph} {o : List Nat}
    (hwf : g.WF) (hperm : o.Perm (List.range g.n)) (x : Nat) :
    succInit g o x ⊆ Finset.range g.n := by
  intro w hw
  simp only [succInit, List.mem_toFinset, List.mem_filter, decide_eq_true_eq] at hw
  obtain ⟨hadj, hlt⟩ := hw
  by_cases hx : x < g.n
  · exact Finset.mem_range.mpr ((hwf x hx).1 w hadj).1
  · exfalso
    have hxo : x ∉ o := fun hmem => hx (List.mem_range.mp (hperm.mem_iff.mp hmem))
    rw [List.indexOf_of_not_mem hxo] at hlt
    exact absurd hlt (Nat.not_lt.mpr List.indexOf_le_length)

/-- `fill` and `fill_in` run in lockstep: the successor maps stay equal, and
the mutated graph's edge set is the original edge set plus the accumulated
fill-in pairs. -/
theorem fill_fold_rel (g : Graph) (o : List Nat) (hperm : o.Perm (List.range g.n)) :
    ∀ (l : List Nat) (s : Nat → Finset Nat) (a : Finset (Nat × Nat)) (h : Graph),
      (∀ x, s x ⊆ Finset.range g.n) →
      h.n = g.n →
      h.edgeFinset = g.edgeFinset ∪ a →
      (l.foldl (fillStep g o) (s, h)).1 = (l.foldl (fillInStep g o) (s, a)).1 ∧
        (l.foldl (fillStep g o) (s, h)).2.n = g.n ∧
        (l.foldl (fillStep g o) (s, h)).2.edgeFinset =
          g.edgeFinset ∪ (l.foldl (fillInStep g o) (s, a)).2
  | [], s, a, h, hs, hn, he => ⟨rfl, hn, he⟩
  | v :: l, s, a, h, hs, hn, he => by
    rw [List.foldl_cons, List.foldl_cons]
    set m := o.getD (fillMinIdx g o (s v)) 0 with hm
    set D := (s v).erase m \ s m with hD
    have hDsub : D ⊆ Finset.range g.n := by
      refine Finset.Subset.trans ?_ (hs v)
      exact Finset.Subset.trans (Finset.sdiff_subset) (Finset.erase_subset _ _)
    have hlist : ∀ w ∈ ascList g.n D, w < g.n ∧ w ≠ m := by
      intro w hw
      obtain ⟨hwn, hwD⟩ := mem_ascList.mp hw
      exact ⟨hwn, Finset.ne_of_mem_erase (Finset.mem_sdiff.mp hwD).1⟩
    have hmap : ((ascList g.n D).map (canonPair m)).toFinset =
        D.image (canonPair m) := by
      ext p
      simp only [List.mem_toFinset, List.mem_map, Finset.mem_image, mem_ascList]
      constructor
      · rintro ⟨w, ⟨_, hwD⟩, hc⟩
        exact ⟨w, hwD, hc⟩
      · rintro ⟨w, hwD, hc⟩
        exact ⟨w, ⟨Finset.mem_range.mp (hDsub hwD), hwD⟩, hc⟩
    have hs' : ∀ x, (fun x => if x = m then s m ∪ (s v).erase m else s x) x ⊆
        Finset.range g.n := by
      intro x
      by_cases hx : x = m
      · simp only [hx, if_pos rfl]
        exact Finset.union_subset (hs m)
          (Finset.Subset.trans (Finset.erase_subset _ _) (hs v))
      · simp only [if_neg hx]
        exact hs x
    have h1 : fillStep g o (s, h) v =
        ((fun x => if x = m then s m ∪ (s v).erase m else s x),
          (ascList g.n D).foldl (fun G w => addEdge G m w) h) := rfl
    have h2 : fillInStep g o (s, a) v =
        ((fun x => if x = m then s m ∪ (s v).erase m else s x),
          a ∪ D.image (fun w => canonPair m w)) := rfl
    by_cases hDe : D = ∅
    · have hasc : ascList g.n D = [] := by
        rw [hDe]
        simp [ascList]
      rw [h1, h2, hasc, List.foldl_nil, hDe, Finset.image_empty, Finset.union_empty]
      exact fill_fold_rel g o hperm l _ a h hs' hn he
    · have hn0 : 0 < g.n := by
        obtain ⟨w, hw⟩ := Finset.nonempty_iff_ne_empty.mpr hDe
        have := Finset.mem_range.mp (hDsub hw)
        omega
      have hmn : m < g.n := by
        rcases getD_mem_or o (fillMinIdx g o (s v)) with hmem | h0
        · exact List.mem_range.mp (hperm.mem_iff.mp hmem)
        · rw [← hm] at h0
          omega
      have hfold := edgeFinset_foldl_addEdge m (ascList g.n D) h
        (by rw [hn]; exact hmn)
        (fun w hw => ⟨by rw [hn]; exact (hlist w hw).1, (hlist w hw).2⟩)
      rw [h1, h2]
      refine fill_fold_rel g o hperm l _ _ _ hs' (by rw [hfold.1, hn]) ?_
      rw [hfold.2, he, Finset.union_assoc]
      have : (List.map (canonPair m) (ascList g.n D)).toFinset =
          D.image (fun w => canonPair m w) := hmap
      rw [this]

/-- C4: for every graph `g` and order `o`, `fill_in g o` returns the empty
set if and only if `is_perfect_elimination_order g o` returns `true` — the
short-circuiting check agrees exactly with emptiness of the fully computed
fill-in. Proved for all inputs, so in particular under the claim's
preconditions. -/
theorem fillIn_empty_iff_isPEO (g : Graph) (o : List Nat) :
    fill_in g o = ∅ ↔ is_perfect_elimination_order g o = true :=
  (isPEOLoop_iff_fillIn_empty g o o.dropLast (succInit g o)).symm

/-- C3: for a simple undirected graph `g` and a permutation `o` of its
vertices, the graph produced by `fill g o` has exactly the edges of `g`
together with the pairs returned by `fill_in g o` — set equality. -/
theorem fill_edge_union (g : Graph) (o : List Nat)
    (hwf : g.WF) (hperm : o.Perm (List.range g.n)) :
    (fill g o).edgeFinset = g.edgeFinset ∪ fill_in g o :=
  (fill_fold_rel g o hperm o.dropLast (succInit g o) ∅ g
    (succInit_subset_range hwf hperm) rfl (by rw [Finset.union_empty])).2.2

/-- Witness for C3 on the known test graph and order. -/
theorem fill_edge_union_witness :
    knownGraph.WF ∧ ([4, 3, 2, 1, 0, 5] : List Nat).Perm (List.range knownGraph.n) ∧
      (fill knownGraph [4, 3, 2, 1, 0, 5]).edgeFinset =
        knownGraph.edgeFinset ∪ fill_in knownGraph [4, 3, 2, 1, 0, 5] :=
  ⟨by decide, by decide, fill_edge_union knownGraph _ (by decide) (by decide)⟩

/-!
## Safety of the FILL family

The C++ code computes `closest = order[min_index]` with `min_index`
initialized to `n`; the access is in bounds exactly when the processed vertex
has a non-empty successor set. The development below shows that, on a
connected graph, every vertex processed by the main loop (every vertex of the
order but the last) has a non-empty successor set at the moment it is
processed. The key invariant is that the subgraph induced by the
still-unprocessed suffix of the order, under the current successor sets,
stays connected.
-/
theorem mem_drop_iff_indexOf {o : List Nat} (ho : o.Nodup) {k : Nat} {x : Nat} :
    x ∈ o.drop k ↔ x ∈ o ∧ k ≤ o.indexOf x := by
  constructor
  · intro hx
    obtain ⟨i, hi, hget⟩ := List.getElem_of_mem hx
    rw [List.getElem_drop] at hget
    have hki : k + i < o.length := by
      have := hi
      rw [List.length_drop] at this
      omega
    have hidx : o.indexOf x = k + i := by
      rw [← hget]
      exact List.indexOf_getElem ho (k + i) hki
    exact ⟨hget ▸ o.getElem_mem hki, by omega⟩
  · rintro ⟨hx, hk⟩
    have hsplit : x ∈ o.take k ++ o.drop k := by
      rw [List.take_append_drop]
      exact hx
    rcases List.mem_append.mp hsplit with htake | hdrop
    · exfalso
      have h1 : o.indexOf x = (o.take k).indexOf x := by
        conv_lhs => rw [← List.take_append_drop k o]
        exact List.indexOf_append_of_mem htake
      have h2 : (o.take k).indexOf x < (o.take k).length :=
        List.indexOf_lt_length.mpr htake
      have h3 : (o.take k).length ≤ k := by
        rw [List.length_take]
        omega
      omega
    · exact hdrop

/-- When the successor set is non-empty, `order[min_index]` is a member of the
set attaining the minimal position. -/
theorem closest_spec {g : Graph} {o : List Nat} (hperm : o.Perm (List.range g.n))
    {s : Finset Nat} (hs : ∀ w ∈ s, w ∈ o) (hne : s.Nonempty) :
    fillMinIdx g o s < o.length ∧ o.getD (fillMinIdx g o s) 0 ∈ s ∧
      ∀ w ∈ s, o.indexOf (o.getD (fillMinIdx g o s) 0) ≤ o.indexOf w := by
  have hlen : o.length = g.n := by
    rw [hperm.length_eq, List.length_range]
  have hle : ∀ w ∈ s, fillMinIdx g o s ≤ o.indexOf w := by
    intro w hw
    exact (Finset.fold_min_le (o.indexOf w)).mpr (Or.inr ⟨w, hw, le_rfl⟩)
  obtain ⟨w₀, hw₀⟩ := hne
  have hlt : fillMinIdx g o s < o.length := by
    have h1 := hle w₀ hw₀
    have h2 : o.indexOf w₀ < o.length := List.indexOf_lt_length.mpr (hs w₀ hw₀)
    omega
  have hcases : g.n ≤ fillMinIdx g o s ∨ ∃ x ∈ s, o.indexOf x ≤ fillMinIdx g o s :=
    (Finset.fold_min_le (fillMinIdx g o s)).mp (le_refl (fillMinIdx g o s))
  rcases hcases with hb | ⟨w, hw, hwle⟩
  · omega
  · have heq : fillMinIdx g o s = o.indexOf w := Nat.le_antisymm (hle w hw) hwle
    have hget : o.getD (fillMinIdx g o s) 0 = w := by
      rw [heq, List.getD_eq_getElem o 0 (heq ▸ hlt)]
      exact List.getElem_indexOf (heq ▸ hlt)
    rw [hget]
    refine ⟨hlt, hw, fun x hx => ?_⟩
    rw [← heq]
    exact hle x hx

theorem mem_succInit {g : Graph} {o : List Nat} {v w : Nat} :
    w ∈ succInit g o v ↔ w ∈ g.adj v ∧ o.indexOf v < o.indexOf w := by
  simp [succInit, List.mem_filter]

/-- The initial successor sets point forward in the order. -/
theorem succOrd_init {g : Graph} {o : List Nat}
    (hwf : g.WF) (hperm : o.Perm (List.range g.n)) :
    SuccOrd o (succInit g o) := by
  intro x w hw
  obtain ⟨hadj, hlt⟩ := mem_succInit.mp hw
  have hx : x ∈ o := by
    by_contra hxo
    rw [List.indexOf_of_not_mem hxo] at hlt
    exact absurd hlt (Nat.not_lt.mpr List.indexOf_le_length)
  have hxn : x < g.n := List.mem_range.mp (hperm.mem_iff.mp hx)
  have hwn : w < g.n := ((hwf x hxn).1 w hadj).1
  exact ⟨hx, hperm.mem_iff.mpr (List.mem_range.mpr hwn), hlt⟩

/-- On a connected graph the whole order is connected under the initial
successor sets. -/
theorem suffConn_init {g : Graph} {o : List Nat}
    (hwf : g.WF) (hconn : g.Conn) (hperm : o.Perm (List.range g.n)) :
    SuffConn (succInit g o) o := by
  have hmem : ∀ z, z ∈ o ↔ z < g.n := fun z => by
    rw [hperm.mem_iff, List.mem_range]
  intro x hx y hy
  have aux : ∀ a, Relation.ReflTransGen (fun a b => b ∈ g.adj a) a y → a ∈ o →
      Relation.ReflTransGen (SuffEdge (succInit g o) o) a y := by
    intro a hchain
    induction hchain using Relation.ReflTransGen.head_induction_on with
    | refl => exact fun _ => Relation.ReflTransGen.refl
    | head hab hbc ih =>
      rename_i p q
      intro hp
      have hpn : p < g.n := (hmem p).mp hp
      have hqn : q < g.n := ((hwf p hpn).1 q hab).1
      have hq : q ∈ o := (hmem q).mpr hqn
      by_cases hpq : p = q
      · exact hpq ▸ ih hq
      · refine Relation.ReflTransGen.head ?_ (ih hq)
        rcases Nat.lt_trichotomy (o.indexOf p) (o.indexOf q) with hlt | heq | hgt
        · exact ⟨Or.inl (mem_succInit.mpr ⟨hab, hlt⟩), hp, hq⟩
        · exact absurd ((List.indexOf_inj hp hq).mp heq) hpq
        · have hqp : p ∈ g.adj q := ((hwf p hpn).1 q hab).2.1
          exact ⟨Or.inr (mem_succInit.mpr ⟨hqp, hgt⟩), hp, hq⟩
  exact aux x (hconn x ((hmem x).mp hx) y ((hmem y).mp hy)) hx

/-- A step of the FILL loop preserves the forward-pointing invariant. -/
theorem succOrd_step {o : List Nat} (_ho : o.Nodup) {s : Nat → Finset Nat}
    (hso : SuccOrd o s) {v m : Nat} (hmv : m ∈ s v)
    (hmin : ∀ w ∈ s v, o.indexOf m ≤ o.indexOf w) :
    SuccOrd o (fun x => if x = m then s m ∪ (s v).erase m else s x) := by
  intro x w hw
  by_cases hx : x = m
  · have hw' : w ∈ s m ∪ (s v).erase m := by
      have : (fun x => if x = m then s m ∪ (s v).erase m else s x) x =
          s m ∪ (s v).erase m := if_pos hx
      rw [this] at hw
      exact hw
    rw [hx]
    rcases Finset.mem_union.mp hw' with hw'' | hw''
    · exact hso m w hw''
    · obtain ⟨hwm, hwv⟩ := Finset.mem_erase.mp hw''
      obtain ⟨hvo, hwo, _⟩ := hso v w hwv
      obtain ⟨_, hmo, _⟩ := hso v m hmv
      have hle := hmin w hwv
      have hne : o.indexOf m ≠ o.indexOf w :=
        fun h => hwm ((List.indexOf_inj hwo hmo).mp h.symm)
      exact ⟨hmo, hwo, Nat.lt_of_le_of_ne hle hne⟩
  · have hw' : w ∈ s x := by
      have : (fun x => if x = m then s m ∪ (s v).erase m else s x) x = s x :=
        if_neg hx
      rw [this] at hw
      exact hw
    exact hso x w hw'

/-- Processing the earliest remaining vertex keeps the rest of the order
connected: the rerouting argument. Any chain through `v` is rerouted through
its closest successor `m`, which inherits all other successors of `v`. -/
theorem suffConn_step {o : List Nat} (ho : o.Nodup) {s : Nat → Finset Nat}
    (hso : SuccOrd o s) {v m k : Nat} (hvo : v ∈ o) (hvk : o.indexOf v = k)
    (hmv : m ∈ s v) (_hmin : ∀ w ∈ s v, o.indexOf m ≤ o.indexOf w)
    (hsc : SuffConn s (o.drop k)) :
    SuffConn (fun x => if x = m then s m ∪ (s v).erase m else s x)
      (o.drop (k + 1)) := by
  subst hvk
  set k := o.indexOf v with hk
  set s' := fun x => if x = m then s m ∪ (s v).erase m else s x with hs'
  have hs'm : s' m = s m ∪ (s v).erase m := if_pos rfl
  have hs'ne : ∀ x, x ≠ m → s' x = s x := fun x hx => if_neg hx
  have hklen : k < o.length := List.indexOf_lt_length.mpr hvo
  have hgetk : o[k] = v := List.getElem_indexOf hklen
  have hcons : o.drop k = v :: o.drop (k + 1) := by
    rw [List.drop_eq_getElem_cons hklen, hgetk]
  have hvdrop : v ∉ o.drop (k + 1) := by
    intro hmem
    obtain ⟨_, hle⟩ := (mem_drop_iff_indexOf ho).mp hmem
    omega
  -- facts about members of `s v`
  have hsv_mem : ∀ b ∈ s v, b ∈ o.drop (k + 1) := by
    intro b hb
    obtain ⟨_, hbo, hlt⟩ := hso v b hb
    exact (mem_drop_iff_indexOf ho).mpr ⟨hbo, by omega⟩
  have hm_drop : m ∈ o.drop (k + 1) := hsv_mem m hmv
  -- edges incident to v in the restricted graph go to successors of v
  have hv_edge : ∀ {z}, SuffEdge s (o.drop k) v z → z ∈ s v := by
    intro z hz
    obtain ⟨hrel, _, hzdrop⟩ := hz
    rcases hrel with h | h
    · exact h
    · obtain ⟨hzo, _, hlt⟩ := hso z v h
      obtain ⟨_, hle⟩ := (mem_drop_iff_indexOf ho).mp hzdrop
      omega
  have hv_edge' : ∀ {z}, SuffEdge s (o.drop k) z v → z ∈ s v := by
    intro z hz
    obtain ⟨hrel, hzdrop, _⟩ := hz
    rcases hrel with h | h
    · obtain ⟨hzo, _, hlt⟩ := hso z v h
      obtain ⟨_, hle⟩ := (mem_drop_iff_indexOf ho).mp hzdrop
      omega
    · exact h
  -- lift an edge that avoids v
  have hlift : ∀ {a c}, SuffEdge s (o.drop k) a c → a ≠ v → c ≠ v →
      SuffEdge s' (o.drop (k + 1)) a c := by
    intro a c ⟨hrel, hadrop, hcdrop⟩ hav hcv
    have hmemdrop : ∀ {x : Nat}, x ∈ o.drop k → x ≠ v → x ∈ o.drop (k + 1) := by
      intro x hx hxv
      rw [hcons] at hx
      rcases List.mem_cons.mp hx with h | h
      · exact absurd h hxv
      · exact h
    have hsub : ∀ x, s x ⊆ s' x := by
      intro x
      by_cases hx : x = m
      · rw [hx, hs'm]
        exact Finset.subset_union_left
      · rw [hs'ne x hx]
    refine ⟨?_, hmemdrop hadrop hav, hmemdrop hcdrop hcv⟩
    rcases hrel with h | h
    · exact Or.inl (hsub a h)
    · exact Or.inr (hsub c h)
  -- successors of v are joined to m in the new state
  have hstar : ∀ {b}, b ∈ s v →
      Relation.ReflTransGen (SuffEdge s' (o.drop (k + 1))) b m := by
    intro b hb
    by_cases hbm : b = m
    · exact hbm ▸ Relation.ReflTransGen.refl
    · refine Relation.ReflTransGen.single ⟨Or.inr ?_, hsv_mem b hb, hm_drop⟩
      rw [hs'm]
      exact Finset.mem_union_right _ (Finset.mem_erase.mpr ⟨hbm, hb⟩)
  have hstar' : ∀ {c}, c ∈ s v →
      Relation.ReflTransGen (SuffEdge s' (o.drop (k + 1))) m c := by
    intro c hc
    by_cases hcm : c = m
    · exact hcm ▸ Relation.ReflTransGen.refl
    · refine Relation.ReflTransGen.single ⟨Or.inl ?_, hm_drop, hsv_mem c hc⟩
      rw [hs'm]
      exact Finset.mem_union_right _ (Finset.mem_erase.mpr ⟨hcm, hc⟩)
  intro x hx y hy
  have hxk : x ∈ o.drop k := by
    rw [hcons]
    exact List.mem_cons_of_mem v hx
  have hyk : y ∈ o.drop k := by
    rw [hcons]
    exact List.mem_cons_of_mem v hy
  have hyv : y ≠ v := fun h => hvdrop (h ▸ hy)
  have hxv : x ≠ v := fun h => hvdrop (h ▸ hx)
  have key : ∀ a, Relation.ReflTransGen (SuffEdge s (o.drop k)) a y →
      (a ≠ v → Relation.ReflTransGen (SuffEdge s' (o.drop (k + 1))) a y) ∧
        (a = v → ∀ b ∈ s v,
          Relation.ReflTransGen (SuffEdge s' (o.drop (k + 1))) b y) := by
    intro a hchain
    induction hchain using Relation.ReflTransGen.head_induction_on with
    | refl =>
      exact ⟨fun _ => Relation.ReflTransGen.refl,
        fun hyv' => absurd (hyv' ▸ hy) hvdrop⟩
    | head hab hbc ih =>
      rename_i p q
      constructor
      · intro hpv
        by_cases hqv : q = v
        · exact ih.2 hqv p (hv_edge' (hqv ▸ hab))
        · exact Relation.ReflTransGen.head (hlift hab hpv hqv) (ih.1 hqv)
      · intro hpv b hb
        have hqsv : q ∈ s v := hv_edge (hpv ▸ hab)
        have hqv : q ≠ v := by
          intro h
          obtain ⟨_, _, hlt⟩ := hso v q hqsv
          rw [h] at hlt
          omega
        exact ((hstar hb).trans (hstar' hqsv)).trans (ih.1 hqv)
  exact (key x (hsc x hxk y hyk)).1 hxv

/-- On a connected suffix with at least two vertices, the earliest vertex has
a successor. -/
theorem succ_nonempty_of_suffConn {o : List Nat} (ho : o.Nodup)
    {s : Nat → Finset Nat} (hso : SuccOrd o s) {k : Nat} (hk : k + 1 < o.length)
    (hsc : SuffConn s (o.drop k)) : s (o.getD k 0) ≠ ∅ := by
  have hklen : k < o.length := by omega
  have hvg : o.getD k 0 = o[k] := List.getD_eq_getElem o 0 hklen
  rw [hvg]
  have hvo : o[k] ∈ o := o.getElem_mem hklen
  have hvk : o.indexOf o[k] = k := List.indexOf_getElem ho k hklen
  have hyo : o[k + 1] ∈ o := o.getElem_mem hk
  have hyk : o.indexOf o[k + 1] = k + 1 := List.indexOf_getElem ho (k + 1) hk
  have hvdrop : o[k] ∈ o.drop k := (mem_drop_iff_indexOf ho).mpr ⟨hvo, by omega⟩
  have hydrop : o[k + 1] ∈ o.drop k := (mem_drop_iff_indexOf ho).mpr ⟨hyo, by omega⟩
  have hvy : o[k] ≠ o[k + 1] := by
    intro h
    rw [h, hyk] at hvk
    omega
  have hchain := hsc o[k] hvdrop o[k + 1] hydrop
  rcases Relation.ReflTransGen.cases_head hchain with heq | ⟨z, hz, _⟩
  · exact absurd heq hvy
  · obtain ⟨hrel, _, hzdrop⟩ := hz
    intro hemp
    rcases hrel with h | h
    · rw [hemp] at h
      exact absurd h (Finset.not_mem_empty z)
    · obtain ⟨hzo, _, hlt⟩ := hso z o[k] h
      obtain ⟨_, hle⟩ := (mem_drop_iff_indexOf ho).mp hzdrop
      omega

theorem fillStateAt_zero (g : Graph) (o : List Nat) :
    fillStateAt g o 0 = (succInit g o, ∅) := rfl

theorem fillStateAt_succ {g : Graph} {o : List Nat} {k : Nat}
    (hk : k + 1 < o.length) :
    fillStateAt g o (k + 1) = fillInStep g o (fillStateAt g o k) (o.getD k 0) := by
  unfold fillStateAt
  have hkd : k < o.dropLast.length := by
    rw [List.length_dropLast]
    omega
  have htake : o.dropLast.take (k + 1) = o.dropLast.take k ++ [o.dropLast[k]] := by
    rw [List.take_succ, List.getElem?_eq_getElem hkd]
    rfl
  have hgd : o.dropLast[k] = o.getD k 0 := by
    rw [List.getElem_dropLast, List.getD_eq_getElem o 0 (by omega)]
  rw [htake, List.foldl_append, List.foldl_cons, List.foldl_nil, hgd]

theorem fillStateAt_stable {g : Graph} {o : List Nat} {k : Nat}
    (hk : o.length - 1 ≤ k) : fillStateAt g o k = fillStateAt g o (k + 1) := by
  unfold fillStateAt
  have h1 : o.dropLast.length ≤ k := by
    rw [List.length_dropLast]
    omega
  rw [List.take_of_length_le h1, List.take_of_length_le (by omega)]

/-- Main safety invariant of the FILL loop: at every point the successor sets
point forward in the order and keep the unprocessed suffix connected. -/
theorem fill_invariant {g : Graph} {o : List Nat}
    (hwf : g.WF) (hconn : g.Conn) (hperm : o.Perm (List.range g.n)) :
    ∀ k, k < o.length →
      SuccOrd o (fillStateAt g o k).1 ∧ SuffConn (fillStateAt g o k).1 (o.drop k)
  | 0, _ => by
    rw [fillStateAt_zero]
    refine ⟨succOrd_init hwf hperm, ?_⟩
    rw [List.drop_zero]
    exact suffConn_init hwf hconn hperm
  | k + 1, hk1 => by
    have ho : o.Nodup := hperm.nodup_iff.mpr (List.nodup_range _)
    obtain ⟨hso, hsc⟩ := fill_invariant hwf hconn hperm k (by omega)
    have hne : (fillStateAt g o k).1 (o.getD k 0) ≠ ∅ :=
      succ_nonempty_of_suffConn ho hso hk1 hsc
    have hmem : ∀ w ∈ (fillStateAt g o k).1 (o.getD k 0), w ∈ o :=
      fun w hw => (hso _ w hw).2.1
    obtain ⟨hmi, hmv, hmin⟩ := closest_spec hperm hmem
      (Finset.nonempty_iff_ne_empty.mpr hne)
    have hklen : k < o.length := by omega
    have hvo : o.getD k 0 ∈ o := by
      rw [List.getD_eq_getElem o 0 hklen]
      exact o.getElem_mem hklen
    have hvk : o.indexOf (o.getD k 0) = k := by
      rw [List.getD_eq_getElem o 0 hklen]
      exact List.indexOf_getElem ho k hklen
    rw [fillStateAt_succ hk1]
    exact ⟨succOrd_step ho hso hmv hmin,
      suffConn_step ho hso hvo hvk hmv hmin hsc⟩

/-- As long as no defect has been found, the `fill_in` state stays initial:
this is how `is_perfect_elimination_order` (which never updates its successor
sets) tracks the common loop. -/
theorem fillStateAt_of_no_defect {g : Graph} {o : List Nat} :
    ∀ k, (∀ j, j < k → ¬ peoDefect g o (succInit g o) (o.getD j 0)) →
      fillStateAt g o k = (succInit g o, ∅)
  | 0, _ => rfl
  | k + 1, hdef => by
    have ih := fillStateAt_of_no_defect k (fun j hj => hdef j (by omega))
    by_cases hk : k + 1 < o.length
    · rw [fillStateAt_succ hk, ih]
      refine fillInStep_of_no_defect ?_
      have hd := hdef k (by omega)
      rw [peoDefect] at hd
      exact Finset.not_nonempty_iff_eq_empty.mp hd
    · rw [← fillStateAt_stable (by omega), ih]

/-- The `fill` loop and the `fill_in` loop maintain identical successor
maps. -/
theorem fill_fillIn_succ_eq (g : Graph) (o : List Nat) :
    ∀ (l : List Nat) (s : Nat → Finset Nat) (a : Finset (Nat × Nat)) (h : Graph),
      (l.foldl (fillStep g o) (s, h)).1 = (l.foldl (fillInStep g o) (s, a)).1
  | [], _, _, _ => rfl
  | v :: l, s, a, h => by
    rw [List.foldl_cons, List.foldl_cons]
    exact fill_fillIn_succ_eq g o l _ _ _

/-- C6: given the preconditions (`g` simple, connected, undirected; `order` a
permutation of the vertices), the FILL family never fails at runtime: every
vertex processed by the main loop (every position but the last) has a
non-empty successor set at that moment, so `min_index` stays below `n` and the
lookup `order[min_index]` is in bounds. This holds for the states of the
`fill_in` loop and of the `fill` loop, and — for
`is_perfect_elimination_order`, whose successor sets never change — at every
position it reaches without having already returned `false`. -/
theorem fill_family_safe {g : Graph} {o : List Nat}
    (hwf : g.WF) (hconn : g.Conn) (hperm : o.Perm (List.range g.n)) :
    ∀ k, k + 1 < o.length →
      ((fillStateAt g o k).1 (o.getD k 0) ≠ ∅ ∧
        fillMinIdx g o ((fillStateAt g o k).1 (o.getD k 0)) < o.length) ∧
      ((o.dropLast.take k).foldl (fillStep g o) (succInit g o, g)).1
          (o.getD k 0) ≠ ∅ ∧
      ((∀ j, j < k → ¬ peoDefect g o (succInit g o) (o.getD j 0)) →
        succInit g o (o.getD k 0) ≠ ∅) := by
  intro k hk
  have ho : o.Nodup := hperm.nodup_iff.mpr (List.nodup_range _)
  obtain ⟨hso, hsc⟩ := fill_invariant hwf hconn hperm k (by omega)
  have hne : (fillStateAt g o k).1 (o.getD k 0) ≠ ∅ :=
    succ_nonempty_of_suffConn ho hso hk hsc
  have hmem : ∀ w ∈ (fillStateAt g o k).1 (o.getD k 0), w ∈ o :=
    fun w hw => (hso _ w hw).2.1
  obtain ⟨hmi, _, _⟩ := closest_spec hperm hmem (Finset.nonempty_iff_ne_empty.mpr hne)
  refine ⟨⟨hne, hmi⟩, ?_, ?_⟩
  · rw [fill_fillIn_succ_eq g o (o.dropLast.take k) (succInit g o) ∅ g]
    exact hne
  · intro hdef
    have hstate := fillStateAt_of_no_defect k hdef
    rw [hstate] at hne
    exact hne

theorem path3_conn : path3.Conn := by
  intro u hu v hv
  have hu3 : u < 3 := hu
  have hv3 : v < 3 := hv
  interval_cases u <;> interval_cases v
  · exact Relation.ReflTransGen.refl
  · exact Relation.ReflTransGen.single (by decide)
  · exact Relation.ReflTransGen.head (show (1 : Nat) ∈ path3.adj 0 by decide)
      (Relation.ReflTransGen.single (by decide))
  · exact Relation.ReflTransGen.single (by decide)
  · exact Relation.ReflTransGen.refl
  · exact Relation.ReflTransGen.single (by decide)
  · exact Relation.ReflTransGen.head (show (1 : Nat) ∈ path3.adj 2 by decide)
      (Relation.ReflTransGen.single (by decide))
  · exact Relation.ReflTransGen.single (by decide)
  · exact Relation.ReflTransGen.refl

/-- Witness for C6 on the path graph with the order `[1, 0, 2]`, with every
hypothesis discharged on this concrete input. -/
theorem fill_family_safe_witness :
    path3.WF ∧ path3.Conn ∧ ([1, 0, 2] : List Nat).Perm (List.range path3.n) ∧
      ∀ k, k + 1 < ([1, 0, 2] : List Nat).length →
        ((fillStateAt path3 [1, 0, 2] k).1 (([1, 0, 2] : List Nat).getD k 0) ≠ ∅ ∧
          fillMinIdx path3 [1, 0, 2]
            ((fillStateAt path3 [1, 0, 2] k).1 (([1, 0, 2] : List Nat).getD k 0)) <
              ([1, 0, 2] : List Nat).length) ∧
        ((([1, 0, 2] : List Nat).dropLast.take k).foldl (fillStep path3 [1, 0, 2])
            (succInit path3 [1, 0, 2], path3)).1
              (([1, 0, 2] : List Nat).getD k 0) ≠ ∅ ∧
        ((∀ j, j < k → ¬ peoDefect path3 [1, 0, 2] (succInit path3 [1, 0, 2])
            (([1, 0, 2] : List Nat).getD j 0)) →
          succInit path3 [1, 0, 2] (([1, 0, 2] : List Nat).getD k 0) ≠ ∅) :=
  ⟨by decide, path3_conn, by decide,
    fill_family_safe (by decide) path3_conn (by decide)⟩

/-!
## Radix sort
-/
theorem pairwise_of_triv {α : Type} {R : α → α → Prop} (h : ∀ x y, R x y) :
    ∀ l : List α, l.Pairwise R
  | [] => List.Pairwise.nil
  | x :: t => List.Pairwise.cons (fun y _ => h x y) (pairwise_of_triv h t)

theorem flatten_map_eq_single {β : Type} (F : Nat → List β) :
    ∀ (n : Nat) (d0 : Nat), d0 < n → (∀ d, d < n → d ≠ d0 → F d = []) →
      ((List.range n).map F).flatten = F d0
  | 0, d0, hd0, _ => absurd hd0 (Nat.not_lt_zero d0)
  | n + 1, d0, hd0, hF => by
    rw [List.range_succ, List.map_append, List.flatten_append]
    by_cases hd : d0 = n
    · have hnil : ((List.range n).map F).flatten = [] := by
        rw [List.flatten_eq_nil_iff]
        intro piece hpiece
        obtain ⟨d, hdn, rfl⟩ := List.mem_map.mp hpiece
        exact hF d (by have := List.mem_range.mp hdn; omega)
          (by have := List.mem_range.mp hdn; omega)
      rw [hnil, hd]
      simp
    · have ih := flatten_map_eq_single F n d0 (by omega)
        (fun d hdn hdd0 => hF d (by omega) hdd0)
      rw [ih]
      simp [hF n (by omega) (fun h => hd h.symm)]

theorem sum_map_ite_range (c : Nat) :
    ∀ (n : Nat) (d0 : Nat), d0 < n →
      ((List.range n).map (fun d => if d0 = d then c else 0)).sum = c
  | 0, d0, hd0 => absurd hd0 (Nat.not_lt_zero d0)
  | n + 1, d0, hd0 => by
    rw [List.range_succ, List.map_append, List.sum_append]
    by_cases hd : d0 = n
    · have hzero : ((List.range n).map (fun d => if d0 = d then c else 0)).sum = 0 := by
        rw [List.sum_eq_zero]
        intro x hx
        obtain ⟨d, hdn, rfl⟩ := List.mem_map.mp hx
        have := List.mem_range.mp hdn
        rw [if_neg (by omega)]
      rw [hzero, hd]
      simp
    · have ih := sum_map_ite_range c n d0 (by omega)
      rw [ih]
      have : (if d0 = n then c else 0) = 0 := if_neg hd
      simp [this]

theorem mem_radixPass {α : Type} {l : List α} {key : α → Nat} {shift : Nat}
    {v : α} : v ∈ radixPass l key shift ↔ v ∈ l := by
  rw [radixPass, List.mem_flatten]
  constructor
  · rintro ⟨piece, hpiece, hv⟩
    obtain ⟨d, _, rfl⟩ := List.mem_map.mp hpiece
    exact (List.mem_filter.mp hv).1
  · intro hv
    refine ⟨l.filter (fun w => radixDigit key shift w = radixDigit key shift v),
      List.mem_map.mpr ⟨radixDigit key shift v,
        List.mem_range.mpr (Nat.mod_lt _ (by omega)), rfl⟩, ?_⟩
    rw [List.mem_filter]
    exact ⟨hv, by simp⟩

theorem radixPass_perm {α : Type} [DecidableEq α] (l : List α) (key : α → Nat)
    (shift : Nat) : (radixPass l key shift).Perm l := by
  rw [List.perm_iff_count]
  intro a
  rw [radixPass, List.count_flatten, List.map_map]
  have hpieces : (List.range 16).map
      (List.count a ∘ fun d => l.filter (fun v => radixDigit key shift v = d)) =
      (List.range 16).map
        (fun d => if radixDigit key shift a = d then l.count a else 0) := by
    refine List.map_congr_left ?_
    intro d _
    simp only [Function.comp]
    by_cases hda : radixDigit key shift a = d
    · rw [if_pos hda, List.count_filter (by simp [hda])]
    · rw [if_neg hda, List.count_eq_zero]
      intro hmem
      exact hda (of_decide_eq_true (List.mem_filter.mp hmem).2)
  rw [hpieces, sum_map_ite_range (l.count a) 16 (radixDigit key shift a)
    (Nat.mod_lt _ (by omega))]

theorem radixPass_filter_key {α : Type} (l : List α) (key : α → Nat)
    (shift c : Nat) :
    (radixPass l key shift).filter (fun v => key v = c) =
      l.filter (fun v => key v = c) := by
  rw [radixPass, List.filter_flatten, List.map_map]
  have hstep : ((List.range 16).map
      (List.filter (fun v => key v = c) ∘
        fun d => l.filter (fun v => radixDigit key shift v = d))).flatten =
      l.filter (fun v => decide (key v = c) && decide (radixDigit key shift v =
        (c >>> shift) % 16)) := by
    refine flatten_map_eq_single _ 16 ((c >>> shift) % 16)
      (Nat.mod_lt _ (by omega)) ?_ |>.trans ?_
    · intro d _ hd
      simp only [Function.comp, List.filter_filter]
      rw [List.filter_eq_nil_iff]
      intro v _
      simp only [Bool.and_eq_true, decide_eq_true_eq]
      rintro ⟨hk, hdig⟩
      exact hd (by rw [← hdig, radixDigit, hk])
    · simp only [Function.comp, List.filter_filter]
  rw [hstep]
  refine List.filter_congr ?_
  intro v _
  by_cases hk : key v = c
  · simp [hk, radixDigit]
  · simp [hk]

theorem radixPass_sorted {α : Type} {l : List α} {key : α → Nat} {shift : Nat}
    (h : l.Pairwise (fun a b => key a % 2 ^ shift ≤ key b % 2 ^ shift)) :
    (radixPass l key shift).Pairwise
      (fun a b => key a % 2 ^ (shift + 4) ≤ key b % 2 ^ (shift + 4)) := by
  have hsplit : ∀ x : α, key x % 2 ^ (shift + 4) =
      key x % 2 ^ shift + 2 ^ shift * radixDigit key shift x := by
    intro x
    rw [radixDigit, Nat.shiftRight_eq_div_pow]
    have h16 : (2 : Nat) ^ (shift + 4) = 2 ^ shift * 16 := by
      rw [pow_add]
      norm_num
    rw [h16, Nat.mod_mul]
  rw [radixPass, List.pairwise_flatten]
  refine ⟨?_, ?_⟩
  · intro piece hpiece
    obtain ⟨d, _, rfl⟩ := List.mem_map.mp hpiece
    refine List.Pairwise.imp_of_mem ?_ (h.filter _)
    intro a b ha hb hab
    have hda : radixDigit key shift a = d :=
      of_decide_eq_true (List.mem_filter.mp ha).2
    have hdb : radixDigit key shift b = d :=
      of_decide_eq_true (List.mem_filter.mp hb).2
    rw [hsplit a, hsplit b, hda, hdb]
    omega
  · rw [List.pairwise_map]
    refine List.Pairwise.imp_of_mem ?_ (List.pairwise_lt_range 16)
    intro d1 d2 _ _ hlt x hx y hy
    have hdx : radixDigit key shift x = d1 :=
      of_decide_eq_true (List.mem_filter.mp hx).2
    have hdy : radixDigit key shift y = d2 :=
      of_decide_eq_true (List.mem_filter.mp hy).2
    have hxlow : key x % 2 ^ shift < 2 ^ shift :=
      Nat.mod_lt _ (Nat.pos_pow_of_pos shift (by omega))
    rw [hsplit x, hsplit y, hdx, hdy]
    have hstep : 2 ^ shift * d1 + 2 ^ shift ≤ 2 ^ shift * d2 := by
      have h1 : 2 ^ shift * (d1 + 1) ≤ 2 ^ shift * d2 :=
        Nat.mul_le_mul_left _ (by omega)
      rw [Nat.mul_add, Nat.mul_one] at h1
      exact h1
    omega

theorem foldl_max_le {α : Type} (key : α → Nat) :
    ∀ (l : List α) (b : Nat),
      b ≤ l.foldl (fun mx v => max (key v) mx) b ∧
        ∀ v ∈ l, key v ≤ l.foldl (fun mx v => max (key v) mx) b
  | [], b => ⟨le_rfl, by simp⟩
  | u :: t, b => by
    rw [List.foldl_cons]
    obtain ⟨h1, h2⟩ := foldl_max_le key t (max (key u) b)
    refine ⟨le_trans (by omega) h1, ?_⟩
    intro v hv
    rcases List.mem_cons.mp hv with rfl | hvt
    · exact le_trans (by omega) h1
    · exact h2 v hvt

theorem radixGo_perm {α : Type} [DecidableEq α] (key : α → Nat) (mx : Nat) :
    ∀ (fuel shift : Nat) (l : List α), (radixGo key mx fuel shift l).Perm l
  | 0, _, l => List.Perm.refl l
  | fuel + 1, shift, l => by
    simp only [radixGo]
    by_cases h : mx >>> shift = 0
    · rw [if_pos h]
    · rw [if_neg h]
      exact (radixGo_perm key mx fuel (shift + 4) (radixPass l key shift)).trans
        (radixPass_perm l key shift)

theorem radixGo_filter_key {α : Type} (key : α → Nat) (mx : Nat) :
    ∀ (fuel shift : Nat) (l : List α) (c : Nat),
      (radixGo key mx fuel shift l).filter (fun v => key v = c) =
        l.filter (fun v => key v = c)
  | 0, _, l, c => rfl
  | fuel + 1, shift, l, c => by
    simp only [radixGo]
    by_cases h : mx >>> shift = 0
    · rw [if_pos h]
    · rw [if_neg h]
      rw [radixGo_filter_key key mx fuel (shift + 4) (radixPass l key shift) c]
      exact radixPass_filter_key l key shift c

theorem mem_radixGo {α : Type} (key : α → Nat) (mx : Nat) :
    ∀ (fuel shift : Nat) (l : List α) (v : α),
      v ∈ radixGo key mx fuel shift l ↔ v ∈ l
  | 0, _, l, v => Iff.rfl
  | fuel + 1, shift, l, v => by
    simp only [radixGo]
    by_cases h : mx >>> shift = 0
    · rw [if_pos h]
    · rw [if_neg h]
      rw [mem_radixGo key mx fuel (shift + 4) (radixPass l key shift) v]
      exact mem_radixPass

theorem sorted_of_small {α : Type} {key : α → Nat} {mx shift : Nat} {l : List α}
    (hle : ∀ v ∈ l, key v ≤ mx) (hsh : mx >>> shift = 0)
    (hp : l.Pairwise (fun a b => key a % 2 ^ shift ≤ key b % 2 ^ shift)) :
    l.Pairwise (fun a b => key a ≤ key b) := by
  have hmx : mx < 2 ^ shift := by
    rw [Nat.shiftRight_eq_div_pow] at hsh
    exact (Nat.div_eq_zero_iff (Nat.pos_pow_of_pos shift (by omega))).mp hsh
  refine hp.imp_of_mem ?_
  intro a b ha hb hab
  rwa [Nat.mod_eq_of_lt (by have := hle a ha; omega),
    Nat.mod_eq_of_lt (by have := hle b hb; omega)] at hab

theorem radixGo_sorted {α : Type} (key : α → Nat) (mx : Nat) :
    ∀ (fuel shift : Nat) (l : List α),
      (∀ v ∈ l, key v ≤ mx) → mx >>> (shift + 4 * fuel) = 0 →
      l.Pairwise (fun a b => key a % 2 ^ shift ≤ key b % 2 ^ shift) →
      (radixGo key mx fuel shift l).Pairwise (fun a b => key a ≤ key b)
  | 0, shift, l, hle, hsh, hp => by
    have hsh0 : mx >>> shift = 0 := by simpa using hsh
    exact sorted_of_small hle hsh0 hp
  | fuel + 1, shift, l, hle, hsh, hp => by
    simp only [radixGo]
    by_cases h : mx >>> shift = 0
    · rw [if_pos h]
      exact sorted_of_small hle h hp
    · rw [if_neg h]
      have hsh' : mx >>> (shift + 4 + 4 * fuel) = 0 := by
        have harith : shift + 4 * (fuel + 1) = shift + 4 + 4 * fuel := by omega
        rw [harith] at hsh
        exact hsh
      exact radixGo_sorted key mx fuel (shift + 4) (radixPass l key shift)
        (fun v hv => hle v (mem_radixPass.mp hv)) hsh' (radixPass_sorted hp)

/-- C9: `radix_sort` rewrites the input sequence into a permutation of it that
is non-decreasing in the key, and elements with equal keys keep their original
relative order (stability: for every key value, the output filtered by that
key value is exactly the input filtered by it). -/
theorem radix_sort_correct {α : Type} [DecidableEq α] (l : List α) (key : α → Nat) :
    (radix_sort l key).Perm l ∧
      (radix_sort l key).Pairwise (fun a b => key a ≤ key b) ∧
      ∀ c, (radix_sort l key).filter (fun v => key v = c) =
        l.filter (fun v => key v = c) := by
  refine ⟨radixGo_perm key _ _ 0 l, ?_, fun c => radixGo_filter_key key _ _ 0 l c⟩
  refine radixGo_sorted key (maxKey l key) (maxKey l key + 1) 0 l
    (fun v hv => (foldl_max_le key l 0).2 v hv) ?_ ?_
  · rw [Nat.shiftRight_eq_div_pow]
    refine (Nat.div_eq_zero_iff (Nat.pos_pow_of_pos _ (by omega))).mpr ?_
    calc maxKey l key < 2 ^ maxKey l key := Nat.lt_two_pow _
      _ ≤ 2 ^ (0 + 4 * (maxKey l key + 1)) := Nat.pow_le_pow_right (by omega) (by omega)
  · refine pairwise_of_triv (fun x y => ?_) l
    simp [Nat.mod_one]

theorem mapGetInsert_lookup_self {α : Type} [DecidableEq α]
    (m : List (α × Nat)) (v : α) :
    ((mapGetInsert m v).1).lookup v = some ((m.lookup v).getD 0) ∧
      (mapGetInsert m v).2 = (m.lookup v).getD 0 := by
  unfold mapGetInsert
  match h : m.lookup v with
  | some k => simp [h]
  | none => simp [List.lookup_append, h]

theorem mapGetInsert_lookup_mono {α : Type} [DecidableEq α]
    {m : List (α × Nat)} {x : α} {k : Nat} (h : m.lookup x = some k) (v : α) :
    ((mapGetInsert m v).1).lookup x = some k := by
  unfold mapGetInsert
  match hv : m.lookup v with
  | some k' => simpa [hv] using h
  | none => simp [List.lookup_append, h]

theorem mapGetInsert_lookup_or {α : Type} [DecidableEq α]
    {m : List (α × Nat)} (v x : α) :
    ((mapGetInsert m v).1).lookup x = m.lookup x ∨
      (m.lookup x = none ∧ ((mapGetInsert m v).1).lookup x = some 0) := by
  unfold mapGetInsert
  match hv : m.lookup v with
  | some k' => simp [hv]
  | none =>
    simp only [hv, List.lookup_append]
    match hx : m.lookup x with
    | some k => simp
    | none =>
      by_cases hxv : x = v
      · subst hxv
        simp
      · left
        have hbeq : (x == v) = false := beq_eq_false_iff_ne.mpr hxv
        simp [hx, hbeq, hxv]

/-- Entries present in the map persist (with their key) through `map[v]`
accesses. -/
theorem radixFold_lookup_mono {α : Type} [DecidableEq α] :
    ∀ (t : List α) (mcur : List (α × Nat)) (b : Nat) {x : α} {k : Nat},
      mcur.lookup x = some k →
      (t.foldl (fun st v =>
        ((mapGetInsert st.1 v).1, max (mapGetInsert st.1 v).2 st.2))
          (mcur, b)).1.lookup x = some k
  | [], _, _, _, _, h => h
  | v :: t, mcur, b, x, k, h => by
    rw [List.foldl_cons]
    exact radixFold_lookup_mono t _ _ (mapGetInsert_lookup_mono h v)

/-- Behaviour of the max loop: entries already present keep their key, missing
entries of the sequence get a zero entry, and the computed maximum is the
maximum of the keys with missing keys read as `0`. -/
theorem radixMaxLoop_spec {α : Type} [DecidableEq α] (m : List (α × Nat)) :
    ∀ (l : List α) (mcur : List (α × Nat)) (b : Nat),
      (∀ x, mcur.lookup x = m.lookup x ∨
        (m.lookup x = none ∧ mcur.lookup x = some 0)) →
      (∀ x,
        (l.foldl (fun st v =>
          ((mapGetInsert st.1 v).1, max (mapGetInsert st.1 v).2 st.2))
            (mcur, b)).1.lookup x = m.lookup x ∨
        (m.lookup x = none ∧
          (l.foldl (fun st v =>
            ((mapGetInsert st.1 v).1, max (mapGetInsert st.1 v).2 st.2))
              (mcur, b)).1.lookup x = some 0)) ∧
      (∀ x ∈ l,
        (l.foldl (fun st v =>
          ((mapGetInsert st.1 v).1, max (mapGetInsert st.1 v).2 st.2))
            (mcur, b)).1.lookup x = some ((m.lookup x).getD 0)) ∧
      (l.foldl (fun st v =>
        ((mapGetInsert st.1 v).1, max (mapGetInsert st.1 v).2 st.2))
          (mcur, b)).2 =
        l.foldl (fun mx v => max ((m.lookup v).getD 0) mx) b
  | [], mcur, b, hinv => ⟨hinv, by simp, rfl⟩
  | v :: t, mcur, b, hinv => by
    rw [List.foldl_cons, List.foldl_cons]
    have hval : (mapGetInsert mcur v).2 = (m.lookup v).getD 0 := by
      rcases hinv v with h | ⟨hm, h⟩
      · rw [(mapGetInsert_lookup_self mcur v).2, h]
      · rw [(mapGetInsert_lookup_self mcur v).2, h, hm]
        rfl
    have hinv2 : ∀ x, ((mapGetInsert mcur v).1).lookup x = m.lookup x ∨
        (m.lookup x = none ∧ ((mapGetInsert mcur v).1).lookup x = some 0) := by
      intro x
      rcases mapGetInsert_lookup_or (m := mcur) v x with h | ⟨hnone, h⟩
      · rw [h]
        exact hinv x
      · rcases hinv x with h2 | ⟨hm2, _⟩
        · refine Or.inr ⟨?_, h⟩
          rw [← h2]
          exact hnone
        · exact Or.inr ⟨hm2, h⟩
    obtain ⟨ih1, ih2, ih3⟩ := radixMaxLoop_spec m t (mapGetInsert mcur v).1
      (max (mapGetInsert mcur v).2 b) hinv2
    refine ⟨ih1, ?_, ?_⟩
    · intro x hx
      rcases List.mem_cons.mp hx with rfl | hxt
      · have hval2 : ((mapGetInsert mcur x).1).lookup x =
            some ((m.lookup x).getD 0) := by
          rcases hinv x with h2 | ⟨hm2, h2⟩
          · rw [(mapGetInsert_lookup_self mcur x).1, h2]
          · rw [(mapGetInsert_lookup_self mcur x).1, h2, hm2]
            rfl
        exact radixFold_lookup_mono t _ _ hval2
      · exact ih2 x hxt
    · rw [ih3, hval]

theorem radixPass_congr {α : Type} {k1 k2 : α → Nat} {l : List α}
    (h : ∀ v ∈ l, k1 v = k2 v) (shift : Nat) :
    radixPass l k1 shift = radixPass l k2 shift := by
  unfold radixPass
  refine congrArg List.flatten (List.map_congr_left ?_)
  intro d _
  refine List.filter_congr ?_
  intro v hv
  rw [radixDigit, radixDigit, h v hv]

theorem radixGo_congr {α : Type} {k1 k2 : α → Nat} (mx : Nat) :
    ∀ (fuel shift : Nat) (l : List α), (∀ v ∈ l, k1 v = k2 v) →
      radixGo k1 mx fuel shift l = radixGo k2 mx fuel shift l
  | 0, _, l, _ => rfl
  | fuel + 1, shift, l, h => by
    simp only [radixGo]
    by_cases hsh : mx >>> shift = 0
    · rw [if_pos hsh, if_pos hsh]
    · rw [if_neg hsh, if_neg hsh, radixPass_congr h shift]
      exact radixGo_congr mx fuel (shift + 4) (radixPass l k2 shift)
        (fun v hv => h v (mem_radixPass.mp hv))

/-- In a list sorted by key, the elements with key `0` form a prefix. -/
theorem sorted_zero_prefix {α : Type} (key : α → Nat) :
    ∀ l : List α, l.Pairwise (fun a b => key a ≤ key b) →
      l = l.filter (fun v => key v = 0) ++ l.filter (fun v => ¬ key v = 0)
  | [], _ => rfl
  | x :: t, hp => by
    have ht := sorted_zero_prefix key t hp.of_cons
    by_cases hx : key x = 0
    · rw [List.filter_cons_of_pos (by simp [hx]),
        List.filter_cons_of_neg (by simp [hx]), List.cons_append, ← ht]
    · have hall : ∀ y ∈ t, ¬ key y = 0 := by
        intro y hy h0
        have := (List.pairwise_cons.mp hp).1 y hy
        omega
      have h0 : (x :: t).filter (fun v => key v = 0) = [] := by
        rw [List.filter_eq_nil_iff]
        intro a ha
        rcases List.mem_cons.mp ha with rfl | hat
        · simp [hx]
        · simp [hall a hat]
      rw [h0, List.nil_append, List.filter_eq_self.mpr ?_]
      intro a ha
      rcases List.mem_cons.mp ha with rfl | hat
      · simp [hx]
      · simp [hall a hat]

/-- C10: an element of the sequence with no entry in the key map is treated as
having key `0` — the map-mutating run sorts exactly as `radix_sort` with
missing keys read as `0`, so such elements are placed (in their original
relative order) before every element with a positive key — and, as an
observable side effect, a zero-valued entry for every such element is
default-inserted into the caller's map. -/
theorem radix_sort_missing_key {α : Type} [DecidableEq α]
    (l : List α) (m : List (α × Nat)) :
    (radixSortMap l m).1 = radix_sort l (fun v => (m.lookup v).getD 0) ∧
      (∀ v ∈ l, m.lookup v = none →
        ((radixSortMap l m).2).lookup v = some 0) ∧
      ∃ suffix, (radixSortMap l m).1 =
          l.filter (fun v => (m.lookup v).getD 0 = 0) ++ suffix ∧
        ∀ v ∈ suffix, 0 < (m.lookup v).getD 0 := by
  obtain ⟨hinv, hmem, hmax⟩ := radixMaxLoop_spec m l m 0 (fun x => Or.inl rfl)
  have hmem2 : ∀ x ∈ l, ((radixMaxLoop l m).1).lookup x =
      some ((m.lookup x).getD 0) := hmem
  have hmx : (radixMaxLoop l m).2 = maxKey l (fun v => (m.lookup v).getD 0) :=
    hmax
  have hkey : ∀ v ∈ l, ((radixMaxLoop l m).1.lookup v).getD 0 =
      (m.lookup v).getD 0 := by
    intro v hv
    rw [hmem2 v hv]
    rfl
  have heq : (radixSortMap l m).1 = radix_sort l (fun v => (m.lookup v).getD 0) := by
    show radixGo (fun v => ((radixMaxLoop l m).1.lookup v).getD 0)
        (radixMaxLoop l m).2 ((radixMaxLoop l m).2 + 1) 0 l = _
    rw [radixGo_congr (radixMaxLoop l m).2 ((radixMaxLoop l m).2 + 1) 0 l hkey, hmx]
    rfl
  refine ⟨heq, ?_, ?_⟩
  · intro v hv hnone
    show ((radixMaxLoop l m).1.lookup v) = some 0
    rw [hmem2 v hv, hnone]
    rfl
  · obtain ⟨_, hsorted, hstable⟩ :=
      radix_sort_correct l (fun v => (m.lookup v).getD 0)
    refine ⟨(radix_sort l (fun v => (m.lookup v).getD 0)).filter
      (fun v => ¬ (m.lookup v).getD 0 = 0), ?_, ?_⟩
    · rw [heq]
      have hsplit := sorted_zero_prefix (fun v => (m.lookup v).getD 0) _ hsorted
      rw [← hstable 0]
      exact hsplit
    · intro v hv
      have := List.mem_filter.mp hv
      have hne : ¬ (m.lookup v).getD 0 = 0 := of_decide_eq_true this.2
      omega

/-!
## LEX M
-/
theorem getLastD_mem : ∀ (l : List Nat) (d : Nat), l ≠ [] → l.getLastD d ∈ l
  | [a], d, _ => by simp
  | a :: b :: t, d, _ => by
    have ih := getLastD_mem (b :: t) a (by simp)
    exact List.mem_cons_of_mem a ih

/-- Each iteration of `lex_m` numbers exactly one unnumbered vertex; the
returned order is the unnumbered set plus the already built suffix. -/
theorem lexMIter_perm (g : Graph) :
    ∀ (fuel : Nat) (st : LexMState),
      st.unnumbered.card = fuel →
      st.unnumbered ⊆ Finset.range g.n →
      (0 < fuel → st.cur ∈ st.unnumbered) →
      (↑(lexMIter g fuel st) : Multiset Nat) = st.unnumbered.val + ↑st.order
  | 0, st, hcard, _, _ => by
    rw [lexMIter, Finset.card_eq_zero.mp hcard]
    simp
  | fuel + 1, st, hcard, hsub, hcur => by
    rw [lexMIter]
    have hc := hcur (by omega)
    have hcard2 : (st.unnumbered.erase st.cur).card = fuel := by
      rw [Finset.card_erase_of_mem hc, hcard]
      omega
    have hval : st.unnumbered.val = st.cur ::ₘ (st.unnumbered.erase st.cur).val := by
      rw [Finset.erase_val]
      exact (Multiset.cons_erase (by exact hc)).symm
    by_cases he : st.unnumbered.erase st.cur = ∅
    · rw [if_pos he]
      rw [hval, he]
      simp [Multiset.cons_add]
    · rw [if_neg he]
      have hsub2 : st.unnumbered.erase st.cur ⊆ Finset.range g.n :=
        Finset.Subset.trans (Finset.erase_subset _ _) hsub
      have hlast : ∀ lab : Nat → Nat,
          (radix_sort (ascList g.n (st.unnumbered.erase st.cur)) lab).getLastD 0 ∈
            st.unnumbered.erase st.cur := by
        intro lab
        obtain ⟨x, hx⟩ := Finset.nonempty_iff_ne_empty.mpr he
        have hxa : x ∈ ascList g.n (st.unnumbered.erase st.cur) :=
          mem_ascList.mpr ⟨Finset.mem_range.mp (hsub2 hx), hx⟩
        have hperm := (radix_sort_correct (ascList g.n (st.unnumbered.erase st.cur)) lab).1
        have hne : radix_sort (ascList g.n (st.unnumbered.erase st.cur)) lab ≠ [] := by
          intro h0
          rw [h0] at hperm
          exact absurd (hperm.symm.mem_iff.mp hxa) (List.not_mem_nil x)
        have hmem := getLastD_mem _ 0 hne
        have := hperm.mem_iff.mp hmem
        exact (mem_ascList.mp this).2
      have ih := lexMIter_perm g fuel
        { unnumbered := st.unnumbered.erase st.cur
          label := (lexMRelabel
            (lexMBFS g (st.unnumbered.erase st.cur) st.nUnique
              (lexMReachInit g st.cur (st.unnumbered.erase st.cur)
                (st.label, fun _ => [], ∅))).1
            (radix_sort (ascList g.n (st.unnumbered.erase st.cur))
              (lexMBFS g (st.unnumbered.erase st.cur) st.nUnique
                (lexMReachInit g st.cur (st.unnumbered.erase st.cur)
                  (st.label, fun _ => [], ∅))).1)).1
          nUnique := (lexMRelabel
            (lexMBFS g (st.unnumbered.erase st.cur) st.nUnique
              (lexMReachInit g st.cur (st.unnumbered.erase st.cur)
                (st.label, fun _ => [], ∅))).1
            (radix_sort (ascList g.n (st.unnumbered.erase st.cur))
              (lexMBFS g (st.unnumbered.erase st.cur) st.nUnique
                (lexMReachInit g st.cur (st.unnumbered.erase st.cur)
                  (st.label, fun _ => [], ∅))).1)).2
          cur := (radix_sort (ascList g.n (st.unnumbered.erase st.cur))
            (lexMBFS g (st.unnumbered.erase st.cur) st.nUnique
              (lexMReachInit g st.cur (st.unnumbered.erase st.cur)
                (st.label, fun _ => [], ∅))).1).getLastD 0
          order := st.cur :: st.order }
        hcard2 hsub2 (fun _ => hlast _)
      rw [ih, hval]
      show (st.unnumbered.erase st.cur).val + ↑(st.cur :: st.order) =
        st.cur ::ₘ (st.unnumbered.erase st.cur).val + ↑st.order
      rw [← Multiset.cons_coe, Multiset.add_cons, Multiset.cons_add]

theorem ascList_range_toFinset (n : Nat) :
    ascList n (List.range n).toFinset = List.range n := by
  unfold ascList
  rw [List.filter_eq_self]
  intro a ha
  simp [List.mem_toFinset, ha]

theorem headD_range : ∀ n : Nat, (List.range n).headD 0 = 0
  | 0 => rfl
  | n + 1 => by rw [List.range_succ_eq_map]; rfl

theorem lexm_perm (g : Graph) : (lex_m g).Perm (List.range g.n) := by
  have hnodup := List.nodup_range g.n
  have h := lexMIter_perm g g.n
    { unnumbered := (List.range g.n).toFinset
      label := fun _ => 0
      nUnique := 1
      cur := (ascList g.n (List.range g.n).toFinset).headD 0
      order := [] }
    (by rw [List.card_toFinset, List.dedup_eq_self.mpr hnodup, List.length_range])
    (by
      intro x hx
      rw [Finset.mem_range]
      exact List.mem_range.mp (List.mem_toFinset.mp hx))
    (by
      intro hn
      rw [ascList_range_toFinset, headD_range]
      rw [List.mem_toFinset, List.mem_range]
      exact hn)
  rw [← Multiset.coe_eq_coe]
  have hval : ((List.range g.n).toFinset.val : Multiset Nat) = ↑(List.range g.n) := by
    rw [List.toFinset, Multiset.toFinset_val,
      Multiset.dedup_eq_self.mpr (Multiset.coe_nodup.mpr hnodup)]
  rw [show (lex_m g : List Nat) = lexMIter g g.n
    { unnumbered := (List.range g.n).toFinset
      label := fun _ => 0
      nUnique := 1
      cur := (ascList g.n (List.range g.n).toFinset).headD 0
      order := [] } from rfl, h, hval]
  simp

/-- Density invariant of the relabel loop: if the new labels of the processed
vertices form the dense even sequence `{0, 2, …, 2·(nU−1)}`, this persists
through the remaining vertices. -/
theorem lexMRelabel_fold_dense :
    ∀ (rest : List Nat) (st : (Nat → Nat) × Nat × Nat) (done : Finset Nat),
      rest.Nodup → (∀ v ∈ rest, v ∉ done) → 0 < st.2.2 →
      done.image st.1 = (Finset.range st.2.2).image (fun i => 2 * i) →
      0 < (rest.foldl lexMRelabelStep st).2.2 ∧
        (done ∪ rest.toFinset).image (rest.foldl lexMRelabelStep st).1 =
          (Finset.range (rest.foldl lexMRelabelStep st).2.2).image (fun i => 2 * i)
  | [], st, done, _, _, hpos, himg => by
    simp only [List.foldl_nil, List.toFinset_nil, Finset.union_empty]
    exact ⟨hpos, himg⟩
  | v :: t, st, done, hnodup, hdisj, hpos, himg => by
    rw [List.foldl_cons]
    have hvdone : v ∉ done := hdisj v (List.mem_cons_self v t)
    have hstep : ∀ x ∈ done, (lexMRelabelStep st v).1 x = st.1 x := by
      intro x hx
      have hxv : x ≠ v := fun h => hvdone (h ▸ hx)
      show (if x = v then _ else st.1 x) = st.1 x
      rw [if_neg hxv]
    have himg2 : (insert v done).image (lexMRelabelStep st v).1 =
        (Finset.range (lexMRelabelStep st v).2.2).image (fun i => 2 * i) := by
      rw [Finset.image_insert]
      have hdone_img : done.image (lexMRelabelStep st v).1 = done.image st.1 :=
        Finset.image_congr (fun x hx => hstep x hx)
      rw [hdone_img, himg]
      by_cases hc : st.1 v ≠ st.2.1
      · have hval : (lexMRelabelStep st v).1 v = 2 * st.2.2 := by
          show (if v = v then 2 * ((if st.1 v ≠ st.2.1 then st.2.2 + 1 else st.2.2) - 1)
            else st.1 v) = 2 * st.2.2
          rw [if_pos rfl, if_pos hc]
          omega
        have hnu : (lexMRelabelStep st v).2.2 = st.2.2 + 1 := by
          show (if st.1 v ≠ st.2.1 then st.2.2 + 1 else st.2.2) = st.2.2 + 1
          rw [if_pos hc]
        rw [hval, hnu, Finset.range_succ, Finset.image_insert]
      · have hval : (lexMRelabelStep st v).1 v = 2 * (st.2.2 - 1) := by
          show (if v = v then 2 * ((if st.1 v ≠ st.2.1 then st.2.2 + 1 else st.2.2) - 1)
            else st.1 v) = 2 * (st.2.2 - 1)
          rw [if_pos rfl, if_neg hc]
        have hnu : (lexMRelabelStep st v).2.2 = st.2.2 := by
          show (if st.1 v ≠ st.2.1 then st.2.2 + 1 else st.2.2) = st.2.2
          rw [if_neg hc]
        rw [hval, hnu, Finset.insert_eq_self.mpr]
        exact Finset.mem_image.mpr ⟨st.2.2 - 1, Finset.mem_range.mpr (by omega), rfl⟩
    have hnu_pos : 0 < (lexMRelabelStep st v).2.2 := by
      show 0 < (if st.1 v ≠ st.2.1 then st.2.2 + 1 else st.2.2)
      by_cases hc : st.1 v ≠ st.2.1
      · rw [if_pos hc]
        omega
      · rw [if_neg hc]
        exact hpos
    have ih := lexMRelabel_fold_dense t (lexMRelabelStep st v) (insert v done)
      (List.nodup_cons.mp hnodup).2
      (fun w hw => by
        intro hmem
        rcases Finset.mem_insert.mp hmem with rfl | hwd
        · exact (List.nodup_cons.mp hnodup).1 hw
        · exact hdisj w (List.mem_cons_of_mem v hw) hwd)
      hnu_pos himg2
    refine ⟨ih.1, ?_⟩
    rw [← ih.2]
    congr 1
    rw [List.toFinset_cons]
    ext x
    simp only [Finset.mem_union, Finset.mem_insert, List.mem_toFinset]
    tauto

/-- C7: invariant of `lex_m` — at the end of an iteration's relabel phase
(radix-sort the unnumbered vertices by current label, then relabel them in
place), the labels of the still-unnumbered vertices are drawn exactly from
the dense even sequence `{0, 2, …, 2·(k−1)}` where `k` is the number of
distinct label values among those vertices, every value of the sequence is
attained, and `k` is the `n_unique_labels` counter returned by the phase. -/
theorem lexm_relabel_invariant (n : Nat) (unn : Finset Nat) (lab : Nat → Nat)
    (hsub : unn ⊆ Finset.range n) (hne : unn.Nonempty) :
    unn.image (lexMRelabel lab (radix_sort (ascList n unn) lab)).1 =
      (Finset.range ((unn.image
        (lexMRelabel lab (radix_sort (ascList n unn) lab)).1).card)).image
        (fun i => 2 * i) ∧
      (unn.image (lexMRelabel lab (radix_sort (ascList n unn) lab)).1).card =
        (lexMRelabel lab (radix_sort (ascList n unn) lab)).2 := by
  set s := radix_sort (ascList n unn) lab with hs
  have hperm : s.Perm (ascList n unn) := (radix_sort_correct _ lab).1
  have hnodup : s.Nodup :=
    hperm.nodup_iff.mpr (List.Nodup.filter _ (List.nodup_range n))
  have hsfin : s.toFinset = unn := by
    ext x
    rw [List.mem_toFinset, hperm.mem_iff, mem_ascList]
    constructor
    · rintro ⟨_, h⟩
      exact h
    · intro h
      exact ⟨Finset.mem_range.mp (hsub h), h⟩
  obtain ⟨x, hx⟩ := hne
  have hsne : s ≠ [] := by
    intro h0
    rw [h0] at hsfin
    rw [← hsfin] at hx
    simp at hx
  obtain ⟨v₀, rest, hcons⟩ := List.exists_cons_of_ne_nil hsne
  have hnu1 : (lexMRelabelStep (lab, lab v₀, 1) v₀).2.2 = 1 := by
    show (if lab v₀ ≠ lab v₀ then 1 + 1 else 1) = 1
    simp
  have hmap1 : (lexMRelabelStep (lab, lab v₀, 1) v₀).1 v₀ = 0 := by
    show (if v₀ = v₀ then 2 * ((if lab v₀ ≠ lab v₀ then 1 + 1 else 1) - 1)
      else lab v₀) = 0
    simp
  have himg1 : ({v₀} : Finset Nat).image (lexMRelabelStep (lab, lab v₀, 1) v₀).1 =
      (Finset.range (lexMRelabelStep (lab, lab v₀, 1) v₀).2.2).image
        (fun i => 2 * i) := by
    rw [Finset.image_singleton, hmap1, hnu1]
    decide
  have hnodup2 : rest.Nodup := by
    rw [hcons] at hnodup
    exact (List.nodup_cons.mp hnodup).2
  have hv₀rest : v₀ ∉ rest := by
    rw [hcons] at hnodup
    exact (List.nodup_cons.mp hnodup).1
  have haux := lexMRelabel_fold_dense rest (lexMRelabelStep (lab, lab v₀, 1) v₀)
    {v₀} hnodup2
    (fun w hw => by
      rw [Finset.mem_singleton]
      intro h
      exact hv₀rest (h ▸ hw))
    (by rw [hnu1]; omega) himg1
  have hfold : lexMRelabel lab s =
      ((rest.foldl lexMRelabelStep (lexMRelabelStep (lab, lab v₀, 1) v₀)).1,
        (rest.foldl lexMRelabelStep (lexMRelabelStep (lab, lab v₀, 1) v₀)).2.2) := by
    rw [hcons]
    rfl
  have hununion : ({v₀} : Finset Nat) ∪ rest.toFinset = unn := by
    rw [← hsfin, hcons, List.toFinset_cons, Finset.insert_eq]
  have heq : unn.image (lexMRelabel lab s).1 =
      (Finset.range ((lexMRelabel lab s).2)).image (fun i => 2 * i) := by
    rw [hfold]
    rw [← hununion]
    exact haux.2
  have hinj : Function.Injective (fun i : Nat => 2 * i) := by
    intro a b h
    have h2 : 2 * a = 2 * b := h
    omega
  have hcard : (unn.image (lexMRelabel lab s).1).card = (lexMRelabel lab s).2 := by
    rw [heq, Finset.card_image_of_injective _ hinj, Finset.card_range]
  exact ⟨by rw [hcard, heq], hcard⟩

/-- Witness for C7 at a concrete set and label map. -/
theorem lexm_relabel_invariant_witness :
    ({1, 2} : Finset Nat) ⊆ Finset.range 3 ∧ ({1, 2} : Finset Nat).Nonempty ∧
      (({1, 2} : Finset Nat).image
          (lexMRelabel (fun v => v) (radix_sort (ascList 3 {1, 2}) (fun v => v))).1 =
        (Finset.range ((({1, 2} : Finset Nat).image
          (lexMRelabel (fun v => v)
            (radix_sort (ascList 3 {1, 2}) (fun v => v))).1).card)).image
          (fun i => 2 * i) ∧
        (({1, 2} : Finset Nat).image
          (lexMRelabel (fun v => v)
            (radix_sort (ascList 3 {1, 2}) (fun v => v))).1).card =
          (lexMRelabel (fun v => v) (radix_sort (ascList 3 {1, 2}) (fun v => v))).2) :=
  ⟨by decide, by decide, lexm_relabel_invariant 3 {1, 2} (fun v => v) (by decide) (by decide)⟩

/-!
## LEX P
-/
theorem mem_insertBefore {bl : List Nat} {b nb x : Nat} :
    x ∈ insertBefore bl b nb ↔ x ∈ bl ∨ (b ∈ bl ∧ x = nb) := by
  induction bl with
  | nil => simp [insertBefore]
  | cons y ys ih =>
    rw [insertBefore]
    by_cases hy : y = b
    · rw [if_pos hy]
      subst hy
      simp only [List.mem_cons]
      tauto
    · rw [if_neg hy]
      simp only [List.mem_cons, ih]
      constructor
      · rintro (h | h | ⟨hb, hx⟩)
        · exact Or.inl (Or.inl h)
        · exact Or.inl (Or.inr h)
        · exact Or.inr ⟨Or.inr hb, hx⟩
      · rintro ((h | h) | ⟨(hb | hb), hx⟩)
        · exact Or.inl h
        · exact Or.inr (Or.inl h)
        · exact absurd hb.symm hy
        · exact Or.inr (Or.inr ⟨hb, hx⟩)

theorem subset_lexPSplice :
    ∀ (fix : List (Nat × Nat)) (bl : List Nat), bl ⊆ lexPSplice bl fix
  | [], _ => fun _ h => h
  | p :: fix, bl => by
    intro x hx
    rw [lexPSplice, List.foldl_cons]
    exact subset_lexPSplice fix _ (mem_insertBefore.mpr (Or.inl hx)) 

theorem mem_lexPSplice_of_fix :
    ∀ (fix : List (Nat × Nat)) (bl : List Nat), (∀ p ∈ fix, p.1 ∈ bl) →
      ∀ p ∈ fix, p.2 ∈ lexPSplice bl fix
  | [], _, _ => by simp
  | q :: fix, bl, hanch => by
    intro p hp
    rw [lexPSplice, List.foldl_cons]
    rcases List.mem_cons.mp hp with rfl | hpf
    · exact subset_lexPSplice fix _
        (mem_insertBefore.mpr (Or.inr ⟨hanch p hp, rfl⟩))
    · exact mem_lexPSplice_of_fix fix _
        (fun r hr => mem_insertBefore.mpr
          (Or.inl (hanch r (List.mem_cons_of_mem q hr)))) p hpf

theorem mem_of_mem_lexPSplice :
    ∀ (fix : List (Nat × Nat)) (bl : List Nat) (x : Nat),
      x ∈ lexPSplice bl fix → x ∈ bl ∨ x ∈ fix.map Prod.snd
  | [], _, x, h => Or.inl h
  | q :: fix, bl, x, h => by
    rw [lexPSplice, List.foldl_cons] at h
    rcases mem_of_mem_lexPSplice fix _ x h with h2 | h2
    · rcases mem_insertBefore.mp h2 with h3 | ⟨_, rfl⟩
      · exact Or.inl h3
      · exact Or.inr (by simp)
    · exact Or.inr (by
        rw [List.map_cons]
        exact List.mem_cons_of_mem _ h2)

theorem lexPPick_mem {content : Nat → List Nat} {unordered : Finset Nat} :
    ∀ {blocks : List Nat} {v : Nat},
      lexPPick content unordered blocks = some v → v ∈ unordered := by
  intro blocks
  induction blocks with
  | nil => intro v h; exact absurd h (by rw [lexPPick]; simp)
  | cons b bs ih =>
    intro v h
    rw [lexPPick] at h
    rcases hf : (content b).find? (fun v => v ∈ unordered) with _ | w
    · rw [hf] at h
      exact ih h
    · rw [hf] at h
      cases h
      have := List.find?_some hf
      exact of_decide_eq_true this

theorem lexPPick_isSome {content : Nat → List Nat} {unordered : Finset Nat} :
    ∀ {blocks : List Nat} {b v : Nat}, b ∈ blocks → v ∈ content b →
      v ∈ unordered → (lexPPick content unordered blocks).isSome := by
  intro blocks
  induction blocks with
  | nil => intro b v h; exact absurd h (List.not_mem_nil b)
  | cons b0 bs ih =>
    intro b v hb hv hu
    rw [lexPPick]
    rcases hf : (content b0).find? (fun v => v ∈ unordered) with _ | w
    · rcases List.mem_cons.mp hb with rfl | hbs
      · exfalso
        have := List.find?_eq_none.mp hf v hv
        simp at this
        exact this hu
      · exact ih hbs hv hu
    · rfl

theorem lookup_mem : ∀ {l : List (Nat × Nat)} {k v : Nat},
    l.lookup k = some v → (k, v) ∈ l
  | [], _, _, h => by exact absurd h (by simp [List.lookup])
  | (a, b) :: es, k, v, h => by
    rw [List.lookup] at h
    by_cases hak : a = k
    · subst hak
      rw [show (a == a) = true from beq_self_eq_true a] at h
      cases h
      exact List.mem_cons_self _ _
    · rw [show (k == a) = false from
        beq_eq_false_iff_ne.mpr (fun h2 => hak h2.symm)] at h
      exact List.mem_cons_of_mem _ (lookup_mem h)

theorem lexPMove_content (st : LexPState) (w nb id : Nat) :
    (lexPMove st w nb).content id =
      if id = nb then ((st.content id).erase w) ++ [w]
      else if id = st.vblock w then (st.content id).erase w
      else st.content id := rfl

theorem lexPMove_vblock (st : LexPState) (w nb x : Nat) :
    (lexPMove st w nb).vblock x = if x = w then nb else st.vblock x := rfl

theorem lexPMove_mem_self (st : LexPState) (w nb : Nat) :
    w ∈ (lexPMove st w nb).content ((lexPMove st w nb).vblock w) := by
  rw [lexPMove_vblock, if_pos rfl, lexPMove_content, if_pos rfl]
  exact List.mem_append_right _ (List.mem_singleton_self w)

theorem lexPMove_mem_other {st : LexPState} {w nb v : Nat} (hv : v ≠ w)
    (hmem : v ∈ st.content (st.vblock v)) :
    v ∈ (lexPMove st w nb).content ((lexPMove st w nb).vblock v) := by
  rw [lexPMove_vblock, if_neg hv, lexPMove_content]
  by_cases h1 : st.vblock v = nb
  · rw [if_pos h1]
    exact List.mem_append_left _ ((List.mem_erase_of_ne hv).mpr hmem)
  · rw [if_neg h1]
    by_cases h2 : st.vblock v = st.vblock w
    · rw [if_pos h2]
      exact (List.mem_erase_of_ne hv).mpr hmem
    · rw [if_neg h2]
      exact hmem

theorem lexPMove_content_empty {st : LexPState} {nb id : Nat} (w : Nat)
    (hB : ∀ j, st.nextId ≤ j → st.content j = []) (hid : st.nextId ≤ id)
    (hne : id ≠ nb) : (lexPMove st w nb).content id = [] := by
  rw [lexPMove_content, if_neg hne]
  by_cases h2 : id = st.vblock w
  · rw [if_pos h2, hB id hid]
    rfl
  · rw [if_neg h2]
    exact hB id hid

theorem lexPMove_blockOf {st : LexPState} {w nb : Nat}
    (hD : ∀ v id, v ∈ st.content id → id = st.vblock v)
    (hE : ∀ id, (st.content id).Nodup) :
    ∀ v id, v ∈ (lexPMove st w nb).content id →
      id = (lexPMove st w nb).vblock v := by
  intro v id hv
  rw [lexPMove_content] at hv
  rw [lexPMove_vblock]
  by_cases h1 : id = nb
  · rw [if_pos h1] at hv
    rcases List.mem_append.mp hv with hv2 | hv2
    · have hvne : v ≠ w := by
        intro he
        exact (hE id).not_mem_erase (he ▸ hv2)
      rw [if_neg hvne]
      exact hD v id (List.mem_of_mem_erase hv2)
    · rw [if_pos (List.mem_singleton.mp hv2)]
      exact h1
  · rw [if_neg h1] at hv
    by_cases h2 : id = st.vblock w
    · rw [if_pos h2] at hv
      have hvne : v ≠ w := by
        intro he
        exact (hE id).not_mem_erase (he ▸ hv)
      rw [if_neg hvne]
      exact hD v id (List.mem_of_mem_erase hv)
    · rw [if_neg h2] at hv
      have hid := hD v id hv
      have hvne : v ≠ w := by
        intro he
        rw [he] at hid
        exact h2 hid
      rw [if_neg hvne]
      exact hid

theorem lexPMove_nodup {st : LexPState} {w nb : Nat}
    (hE : ∀ id, (st.content id).Nodup) :
    ∀ id, ((lexPMove st w nb).content id).Nodup := by
  intro id
  rw [lexPMove_content]
  by_cases h1 : id = nb
  · rw [if_pos h1]
    refine List.nodup_append.mpr ⟨(hE id).erase w, List.nodup_singleton w, ?_⟩
    intro x hx hx2
    rw [List.mem_singleton] at hx2
    subst hx2
    exact (hE id).not_mem_erase hx
  · rw [if_neg h1]
    by_cases h2 : id = st.vblock w
    · rw [if_pos h2]
      exact (hE id).erase w
    · rw [if_neg h2]
      exact hE id

theorem lexPRefineStep_not_mem {st : LexPState} {fix : List (Nat × Nat)}
    {w : Nat} (hw : w ∉ st.unordered) : lexPRefineStep (st, fix) w = (st, fix) := by
  rw [lexPRefineStep, if_neg hw]

theorem lexPRefineStep_some {st : LexPState} {fix : List (Nat × Nat)}
    {w nb : Nat} (hw : w ∈ st.unordered)
    (hlk : fix.lookup (st.vblock w) = some nb) :
    lexPRefineStep (st, fix) w = (lexPMove st w nb, fix) := by
  rw [lexPRefineStep, if_pos hw, hlk]

theorem lexPRefineStep_none {st : LexPState} {fix : List (Nat × Nat)}
    {w : Nat} (hw : w ∈ st.unordered)
    (hlk : fix.lookup (st.vblock w) = none) :
    lexPRefineStep (st, fix) w =
      ({ lexPMove st w st.nextId with nextId := st.nextId + 1 },
        fix ++ [(st.vblock w, st.nextId)]) := by
  rw [lexPRefineStep, if_pos hw, hlk]

theorem lexPRefineStep_inv {st : LexPState} {fix : List (Nat × Nat)} {w : Nat}
    (hinv : LexPRefInv st fix) (hwb : st.vblock w ∈ st.blocks) :
    LexPRefInv (lexPRefineStep (st, fix) w).1 (lexPRefineStep (st, fix) w).2 ∧
    (lexPRefineStep (st, fix) w).1.blocks = st.blocks ∧
    (lexPRefineStep (st, fix) w).1.unordered = st.unordered ∧
    (lexPRefineStep (st, fix) w).1.order = st.order ∧
    st.nextId ≤ (lexPRefineStep (st, fix) w).1.nextId ∧
    (∀ x, x ≠ w → (lexPRefineStep (st, fix) w).1.vblock x = st.vblock x) := by
  obtain ⟨hA, hB, hC, hD, hE, hF, hG⟩ := hinv
  by_cases hw : w ∈ st.unordered
  · rcases hlk : fix.lookup (st.vblock w) with _ | nb
    · rw [lexPRefineStep_none hw hlk]
      refine ⟨⟨?_, ?_, ?_, ?_, ?_, ?_, ?_⟩, rfl, rfl, rfl, Nat.le_succ _, ?_⟩
      · show ∀ v ∈ st.unordered,
          v ∈ (lexPMove st w st.nextId).content ((lexPMove st w st.nextId).vblock v)
        intro v hv
        by_cases hvw : v = w
        · subst hvw
          exact lexPMove_mem_self st v st.nextId
        · exact lexPMove_mem_other hvw (hA v hv)
      · show ∀ id, st.nextId + 1 ≤ id → (lexPMove st w st.nextId).content id = []
        intro id hid
        exact lexPMove_content_empty w hB (by omega) (by omega)
      · show ∀ id ∈ st.blocks, id < st.nextId + 1
        intro id hid
        have := hC id hid
        omega
      · exact lexPMove_blockOf hD hE
      · exact lexPMove_nodup hE
      · show ∀ q ∈ fix ++ [(st.vblock w, st.nextId)],
          q.1 ∈ st.blocks ∧ q.2 < st.nextId + 1 ∧ q.2 ∉ st.blocks
        intro q hq
        rcases List.mem_append.mp hq with hq2 | hq2
        · obtain ⟨hf1, hf2, hf3⟩ := hF q hq2
          exact ⟨hf1, by omega, hf3⟩
        · rw [List.mem_singleton] at hq2
          subst hq2
          refine ⟨hwb, by omega, ?_⟩
          intro hmem
          have := hC _ hmem
          omega
      · show ∀ v, (lexPMove st w st.nextId).vblock v ∈ st.blocks ∨
          (lexPMove st w st.nextId).vblock v ∈
            (fix ++ [(st.vblock w, st.nextId)]).map Prod.snd
        intro v
        by_cases hvw : v = w
        · subst hvw
          right
          rw [lexPMove_vblock, if_pos rfl, List.map_append]
          exact List.mem_append_right _ (by simp)
        · rw [lexPMove_vblock, if_neg hvw]
          rcases hG v with h | h
          · exact Or.inl h
          · right
            rw [List.map_append]
            exact List.mem_append_left _ h
      · show ∀ x, x ≠ w → (lexPMove st w st.nextId).vblock x = st.vblock x
        intro x hx
        rw [lexPMove_vblock, if_neg hx]
    · rw [lexPRefineStep_some hw hlk]
      have hpair := lookup_mem hlk
      obtain ⟨hf1, hf2, hf3⟩ := hF _ hpair
      refine ⟨⟨?_, ?_, hC, lexPMove_blockOf hD hE, lexPMove_nodup hE, hF, ?_⟩,
        rfl, rfl, rfl, le_refl _, ?_⟩
      · show ∀ v ∈ st.unordered,
          v ∈ (lexPMove st w nb).content ((lexPMove st w nb).vblock v)
        intro v hv
        by_cases hvw : v = w
        · subst hvw
          exact lexPMove_mem_self st v nb
        · exact lexPMove_mem_other hvw (hA v hv)
      · show ∀ id, st.nextId ≤ id → (lexPMove st w nb).content id = []
        intro id hid
        exact lexPMove_content_empty w hB hid (by omega)
      · show ∀ v, (lexPMove st w nb).vblock v ∈ st.blocks ∨
          (lexPMove st w nb).vblock v ∈ fix.map Prod.snd
        intro v
        by_cases hvw : v = w
        · subst hvw
          right
          rw [lexPMove_vblock, if_pos rfl]
          exact List.mem_map.mpr ⟨_, hpair, rfl⟩
        · rw [lexPMove_vblock, if_neg hvw]
          exact hG v
      · show ∀ x, x ≠ w → (lexPMove st w nb).vblock x = st.vblock x
        intro x hx
        rw [lexPMove_vblock, if_neg hx]
  · rw [lexPRefineStep_not_mem hw]
    exact ⟨⟨hA, hB, hC, hD, hE, hF, hG⟩, rfl, rfl, rfl, le_refl _, fun _ _ => rfl⟩

theorem lexPRefine_fold :
    ∀ (ws : List Nat) (st : LexPState) (fix : List (Nat × Nat)),
      ws.Nodup → LexPRefInv st fix → (∀ w ∈ ws, st.vblock w ∈ st.blocks) →
      LexPRefInv (ws.foldl lexPRefineStep (st, fix)).1
          (ws.foldl lexPRefineStep (st, fix)).2 ∧
        (ws.foldl lexPRefineStep (st, fix)).1.blocks = st.blocks ∧
        (ws.foldl lexPRefineStep (st, fix)).1.unordered = st.unordered ∧
        (ws.foldl lexPRefineStep (st, fix)).1.order = st.order ∧
        st.nextId ≤ (ws.foldl lexPRefineStep (st, fix)).1.nextId
  | [], _, _, _, hinv, _ => ⟨hinv, rfl, rfl, rfl, le_refl _⟩
  | w :: ws, st, fix, hnd, hinv, hH => by
    rw [List.foldl_cons]
    obtain ⟨hw0, hndr⟩ := List.nodup_cons.mp hnd
    obtain ⟨hinv', hbl, hun, hord, hnext, hvb⟩ :=
      lexPRefineStep_inv hinv (hH w (List.mem_cons_self w ws))
    rcases hp : lexPRefineStep (st, fix) w with ⟨st1, fix1⟩
    rw [hp] at hinv' hbl hun hord hnext hvb
    dsimp only at hinv' hbl hun hord hnext hvb
    have hH1 : ∀ u ∈ ws, st1.vblock u ∈ st1.blocks := by
      intro u hu
      rw [hbl, hvb u (fun he => hw0 (he ▸ hu))]
      exact hH u (List.mem_cons_of_mem w hu)
    obtain ⟨i1, b1, u1, o1, n1⟩ := lexPRefine_fold ws st1 fix1 hndr hinv' hH1
    exact ⟨i1, b1.trans hbl, u1.trans hun, o1.trans hord, le_trans hnext n1⟩

theorem lexPStep_inv {g : Graph} (hwf : g.WF) {st : LexPState}
    (hinv : LexPInv g st) {cur : Nat}
    (hpick : lexPPick st.content st.unordered st.blocks = some cur) :
    LexPInv g (lexPStep g st) ∧ cur ∈ st.unordered ∧
      (lexPStep g st).unordered = st.unordered.erase cur ∧
      (lexPStep g st).order = cur :: st.order := by
  obtain ⟨hsub, hA, hB, hC, hD, hE, hF, hG⟩ := hinv
  have hcur : cur ∈ st.unordered := lexPPick_mem hpick
  have hcurn : cur < g.n := by
    have := hsub hcur
    rw [List.mem_toFinset, List.mem_range] at this
    exact this
  have hnd : (g.adj cur).Nodup := (hwf cur hcurn).2
  have hinv1 : LexPRefInv
      { st with unordered := st.unordered.erase cur, order := cur :: st.order }
      [] := by
    refine ⟨?_, hB, hC, hD, hE, ?_, ?_⟩
    · intro v hv
      exact hA v (Finset.mem_of_mem_erase hv)
    · intro q hq
      exact absurd hq (List.not_mem_nil q)
    · intro v
      rcases hG v with h | h
      · exact Or.inl h
      · exact absurd h (by simp)
  have hH : ∀ w ∈ g.adj cur,
      ({ st with unordered := st.unordered.erase cur, order := cur :: st.order } : LexPState).vblock w ∈
        ({ st with unordered := st.unordered.erase cur, order := cur :: st.order } : LexPState).blocks := by
    intro w _
    show st.vblock w ∈ st.blocks
    rcases hG w with h | h
    · exact h
    · exact absurd h (by simp)
  obtain ⟨⟨hA2, hB2, hC2, hD2, hE2, hF2, hG2⟩, hbl2, hun2, hord2, hnx2⟩ :=
    lexPRefine_fold (g.adj cur)
      { st with unordered := st.unordered.erase cur, order := cur :: st.order }
      [] hnd hinv1 hH
  have hstep : lexPStep g st =
      { ((g.adj cur).foldl lexPRefineStep
          ({ st with unordered := st.unordered.erase cur, order := cur :: st.order }, [])).1 with
        blocks := lexPSplice
          ((g.adj cur).foldl lexPRefineStep
            ({ st with unordered := st.unordered.erase cur, order := cur :: st.order }, [])).1.blocks
          ((g.adj cur).foldl lexPRefineStep
            ({ st with unordered := st.unordered.erase cur, order := cur :: st.order }, [])).2 } := by
    rw [lexPStep, hpick]
  rw [hstep]
  refine ⟨⟨?_, ?_, hB2, ?_, hD2, hE2, ?_, ?_⟩, hcur, ?_, ?_⟩
  · intro x hx
    have hx2 : x ∈ ((g.adj cur).foldl lexPRefineStep
        ({ st with unordered := st.unordered.erase cur, order := cur :: st.order }, [])).1.unordered := hx
    rw [hun2] at hx2
    have hx3 : x ∈ st.unordered.erase cur := hx2
    exact hsub (Finset.mem_of_mem_erase hx3)
  · exact hA2
  · intro id hid
    rcases mem_of_mem_lexPSplice _ _ id hid with h | h
    · exact hC2 id h
    · obtain ⟨q, hq, hqe⟩ := List.mem_map.mp h
      rw [← hqe]
      exact (hF2 q hq).2.1
  · intro q hq
    exact absurd hq (List.not_mem_nil q)
  · intro v
    rcases hG2 v with h | h
    · exact Or.inl (subset_lexPSplice _ _ h)
    · obtain ⟨q, hq, hqe⟩ := List.mem_map.mp h
      rw [← hqe]
      exact Or.inl (mem_lexPSplice_of_fix _ _ (fun r hr => (hF2 r hr).1) q hq)
  · exact hun2
  · exact hord2

theorem lexPIter_perm {g : Graph} (hwf : g.WF) :
    ∀ (fuel : Nat) (st : LexPState), LexPInv g st → st.unordered.card = fuel →
      (↑(lexPIter g fuel st) : Multiset Nat) = st.unordered.val + ↑st.order
  | 0, st, _, hcard => by
    rw [lexPIter, Finset.card_eq_zero.mp hcard]
    simp
  | fuel + 1, st, hinv, hcard => by
    rw [lexPIter]
    obtain ⟨v, hv⟩ := Finset.card_pos.mp (by omega : 0 < st.unordered.card)
    have hvb : st.vblock v ∈ st.blocks := by
      rcases hinv.2.2.2.2.2.2.2 v with h | h
      · exact h
      · exact absurd h (by simp)
    have hsome : (lexPPick st.content st.unordered st.blocks).isSome :=
      lexPPick_isSome hvb (hinv.2.1 v hv) hv
    rw [if_pos hsome]
    obtain ⟨cur, hpick⟩ := Option.isSome_iff_exists.mp hsome
    obtain ⟨hinv2, hcur, hun, hord⟩ := lexPStep_inv hwf hinv hpick
    have hcard2 : (lexPStep g st).unordered.card = fuel := by
      rw [hun, Finset.card_erase_of_mem hcur, hcard]
      omega
    have ih := lexPIter_perm hwf fuel (lexPStep g st) hinv2 hcard2
    rw [ih, hun, hord, Finset.erase_val, ← Multiset.cons_coe, Multiset.add_cons,
      ← Multiset.cons_add, Multiset.cons_erase (Finset.mem_def.mp hcur)]

theorem lexPInit_inv (g : Graph) : LexPInv g (lexPInit g) := by
  refine ⟨fun x hx => hx, ?_, ?_, ?_, ?_, ?_, ?_, ?_⟩
  · intro v hv
    show v ∈ (if (0 : Nat) = 0 then List.range g.n else [])
    rw [if_pos rfl]
    exact List.mem_range.mpr (List.mem_range.mp (List.mem_toFinset.mp hv))
  · intro id hid
    have hid2 : 1 ≤ id := hid
    show (if id = 0 then List.range g.n else []) = []
    rw [if_neg (by omega)]
  · intro id hid
    have h0 : id = 0 := List.mem_singleton.mp hid
    show id < 1
    omega
  · intro v id hv
    show id = 0
    by_cases h0 : id = 0
    · exact h0
    · rw [show (lexPInit g).content id = (if id = 0 then List.range g.n else [])
        from rfl, if_neg h0] at hv
      exact absurd hv (List.not_mem_nil v)
  · intro id
    show (if id = 0 then List.range g.n else []).Nodup
    by_cases h0 : id = 0
    · rw [if_pos h0]
      exact List.nodup_range g.n
    · rw [if_neg h0]
      exact List.nodup_nil
  · intro q hq
    exact absurd hq (List.not_mem_nil q)
  · intro v
    exact Or.inl (List.mem_singleton_self 0)

theorem lexp_perm (g : Graph) (hwf : g.WF) : (lex_p g).Perm (List.range g.n) := by
  have h := lexPIter_perm hwf g.n (lexPInit g) (lexPInit_inv g)
    (by rw [show (lexPInit g).unordered = (List.range g.n).toFinset from rfl,
      List.card_toFinset, List.dedup_eq_self.mpr (List.nodup_range g.n),
      List.length_range])
  rw [← Multiset.coe_eq_coe, show lex_p g = lexPIter g g.n (lexPInit g) from rfl, h]
  have hval : ((List.range g.n).toFinset.val : Multiset Nat) = ↑(List.range g.n) := by
    rw [List.toFinset, Multiset.toFinset_val,
      Multiset.dedup_eq_self.mpr (Multiset.coe_nodup.mpr (List.nodup_range g.n))]
  show (List.range g.n).toFinset.val + ↑([] : List Nat) = _
  rw [hval]
  simp

/-- C5: for every well-formed input graph, `lex_m(g)` and `lex_p(g)` each
return a sequence of length `|V(g)|` containing every vertex of `g` exactly
once, i.e. a permutation of the vertex set. -/
theorem lex_orders_perm (g : Graph) (hwf : g.WF) :
    (lex_m g).Perm (List.range g.n) ∧ (lex_m g).length = g.n ∧
    (lex_p g).Perm (List.range g.n) ∧ (lex_p g).length = g.n := by
  refine ⟨lexm_perm g, ?_, lexp_perm g hwf, ?_⟩
  · rw [(lexm_perm g).length_eq, List.length_range]
  · rw [(lexp_perm g hwf).length_eq, List.length_range]

/-- Witness for C5 at the concrete path graph. -/
theorem lex_orders_perm_witness :
    path3.WF ∧
      ((lex_m path3).Perm (List.range path3.n) ∧ (lex_m path3).length = path3.n ∧
        (lex_p path3).Perm (List.range path3.n) ∧ (lex_p path3).length = path3.n) :=
  ⟨by decide, lex_orders_perm path3 (by decide)⟩

theorem lexPStep_of_pick_none {g : Graph} {st : LexPState}
    (h : lexPPick st.content st.unordered st.blocks = none) :
    lexPStep g st = st := by
  rw [lexPStep, h]

theorem lexPIterate_inv {g : Graph} (hwf : g.WF) :
    ∀ k, LexPInv g ((lexPStep g)^[k] (lexPInit g))
  | 0 => lexPInit_inv g
  | k + 1 => by
    rw [Function.iterate_succ_apply']
    have ih := lexPIterate_inv hwf k
    rcases hpick : lexPPick ((lexPStep g)^[k] (lexPInit g)).content
        ((lexPStep g)^[k] (lexPInit g)).unordered
        ((lexPStep g)^[k] (lexPInit g)).blocks with _ | cur
    · rw [lexPStep_of_pick_none hpick]
      exact ih
    · exact (lexPStep_inv hwf ih hpick).1

/-- Counterexample to C8 as stated: in `lex_p`, numbering a vertex removes it
from the `unordered` map but not from its label block. After the first
iteration on the two-vertex complete graph, vertex `0` is numbered (it heads
the order and is no longer unnumbered) yet some listed block still contains
it: it is false that every listed block holds only unnumbered vertices. -/
theorem lexp_numbered_in_block_cex :
    ((lexPStep k2 (lexPInit k2)).order = [0] ∧
      0 ∉ (lexPStep k2 (lexPInit k2)).unordered) ∧
    ¬ (∀ id ∈ (lexPStep k2 (lexPInit k2)).blocks,
        ∀ v ∈ (lexPStep k2 (lexPInit k2)).content id,
          v ∈ (lexPStep k2 (lexPInit k2)).unordered) := by decide

/-- C8 (amended): when a vertex is numbered, `lex_p` removes it from the
`unordered` map only — its label block keeps it, and the block scan skips
numbered vertices by checking membership in `unordered`. The invariant that
does hold at every iteration boundary is that every still-unnumbered vertex
lies in the listed block its label pointer names, and in no other block. -/
theorem lexp_unnumbered_block_invariant {g : Graph} (hwf : g.WF) :
    ∀ k v, v ∈ ((lexPStep g)^[k] (lexPInit g)).unordered →
      (((lexPStep g)^[k] (lexPInit g)).vblock v ∈
          ((lexPStep g)^[k] (lexPInit g)).blocks ∧
        v ∈ ((lexPStep g)^[k] (lexPInit g)).content
          (((lexPStep g)^[k] (lexPInit g)).vblock v)) ∧
      ∀ id, v ∈ ((lexPStep g)^[k] (lexPInit g)).content id →
        id = ((lexPStep g)^[k] (lexPInit g)).vblock v := by
  intro k v hv
  obtain ⟨hsub, hA, hB, hC, hD, hE, hF, hG⟩ := lexPIterate_inv hwf k
  refine ⟨⟨?_, hA v hv⟩, fun id hid => hD v id hid⟩
  rcases hG v with h | h
  · exact h
  · exact absurd h (by simp)

/-- Witness for C8's amended invariant at the concrete two-vertex graph. -/
theorem lexp_unnumbered_block_invariant_witness :
    k2.WF ∧
      ∀ k v, v ∈ ((lexPStep k2)^[k] (lexPInit k2)).unordered →
        (((lexPStep k2)^[k] (lexPInit k2)).vblock v ∈
            ((lexPStep k2)^[k] (lexPInit k2)).blocks ∧
          v ∈ ((lexPStep k2)^[k] (lexPInit k2)).content
            (((lexPStep k2)^[k] (lexPInit k2)).vblock v)) ∧
        ∀ id, v ∈ ((lexPStep k2)^[k] (lexPInit k2)).content id →
          id = ((lexPStep k2)^[k] (lexPInit k2)).vblock v :=
  ⟨by decide, lexp_unnumbered_block_invariant (by decide)⟩
